import Mathlib

/-!
Shallow embedding of the litres_parser crawl pipeline: the work store
(`storage.py`, plus the inline recovery/claim steps of `cli.py cmd_crawl`),
the fetcher and rate limiter (`http.py`), the catalog discovery loop
(`catalog.py`) and the normalizers (`normalizer.py`).

Modelling conventions:
* each SQLite table is a list of rows in rowid order; the `TEXT PRIMARY KEY`
  uniqueness of `queue.url` / `books.url` is carried as a `Nodup` hypothesis
  on the list of keys where a theorem needs it;
* `utc_now_iso` produces ISO-8601 UTC strings whose lexicographic order (the
  order SQLite's `ORDER BY` uses on `TEXT`) agrees with chronological order,
  so `discovered_at` is modelled as a natural number and
  `ORDER BY discovered_at` as sorting by `≤` on that number;
* `sqlite3.Connection.total_changes` (the cumulative count of rows changed
  over the connection's lifetime, which `enqueue_urls` returns) is carried
  explicitly in the connection state;
* wall-clock instants and the random delays of `http.py` are rationals.
-/

namespace LitresParser

/-- A row of the `queue` table (storage.py `init_db`): `url TEXT PRIMARY KEY,
status TEXT NOT NULL DEFAULT 'pending', attempts INTEGER NOT NULL DEFAULT 0,
last_error TEXT, discovered_at TEXT NOT NULL`. -/
structure QueueRow where
  url : String
  status : String
  attempts : Nat
  last_error : Option String
  discovered_at : Nat
deriving DecidableEq, Inhabited

/-- A row of the `books` table (storage.py `init_db` plus the `_ensure_schema`
migration columns).  Every writer in the repository binds string values for
all columns, so the nullable TEXT columns are modelled as `String`. -/
structure BookRow where
  url : String
  title : String
  authors : String
  price : String
  rating : String
  rating_count : String
  genres : String
  formats : String
  description : String
  cover_url : String
  pages : String
  age_restriction : String
  in_series : String
  series_title : String
  format_text : String
  format_audio : String
  format_paper : String
  reviews_count : String
  quotations_count : String
  livelib_rating : String
  livelib_rating_count : String
  chapters : String
  scraped_at : String
  status : String
  error : String
deriving DecidableEq, Inhabited

/-- A row of the `reviews` table (storage.py `init_db`). -/
structure ReviewRow where
  review_id : String
  book_url : String
  author : String
  author_avatar : String
  published_at : String
  rating : String
  text : String
  likes : String
  dislikes : String
  comments_count : String
  replies_count : String
  replies_json : String
  is_livelib : Nat
  scraped_at : String
deriving DecidableEq, Inhabited

/-- An open `sqlite3` connection: the three tables in rowid order plus the
connection's cumulative `total_changes` counter. -/
structure Conn where
  queue : List QueueRow
  books : List BookRow
  reviews : List ReviewRow
  totalChanges : Nat
deriving DecidableEq, Inhabited

/-- Whether the `queue` table has a row whose `url` primary key equals `u`. -/
def hasUrl (q : List QueueRow) (u : String) : Bool :=
  q.any (fun r => r.url = u)

/-- The row a fresh `INSERT INTO queue(url, discovered_at)` creates: the
declared column defaults are `status='pending'`, `attempts=0`,
`last_error=NULL`. -/
def freshRow (u : String) (now : Nat) : QueueRow :=
  { url := u, status := "pending", attempts := 0, last_error := none,
    discovered_at := now }

/-- One `INSERT OR IGNORE INTO queue(url, discovered_at) VALUES(?, ?)`:
a parameter row whose `url` key is already present (in any status) is
ignored.  The second component tracks `total_changes`, which counts only rows
actually inserted. -/
def insertOrIgnoreQueue (q : List QueueRow) (tc : Nat) (u : String) (now : Nat) :
    List QueueRow × Nat :=
  if hasUrl q u then (q, tc)
  else (q ++ [freshRow u now], tc + 1)

/-- storage.py `enqueue_urls`: `executemany` of `INSERT OR IGNORE` over the
given urls, all sharing one `discovered_at` timestamp (`utc_now_iso()` taken
once), commit, then `return con.total_changes` — the connection-wide
cumulative change counter, not the count of rows this call inserted. -/
def enqueue_urls (c : Conn) (urls : List String) (now : Nat) : Conn × Nat :=
  let p := urls.foldl (fun acc u => insertOrIgnoreQueue acc.1 acc.2 u now)
    (c.queue, c.totalChanges)
  ({ c with queue := p.1, totalChanges := p.2 }, p.2)

/-- The comparison `ORDER BY discovered_at` sorts by. -/
def byDiscovered (r s : QueueRow) : Prop := r.discovered_at ≤ s.discovered_at

instance : DecidableRel byDiscovered := fun r s => Nat.decLe r.discovered_at s.discovered_at

instance : IsTotal QueueRow byDiscovered := ⟨fun r s => Nat.le_total r.discovered_at s.discovered_at⟩

instance : IsTrans QueueRow byDiscovered := ⟨fun _ _ _ h h' => Nat.le_trans h h'⟩

/-- `SELECT url FROM queue WHERE status='pending' ORDER BY discovered_at`
(without the limit). -/
def pendingSorted (q : List QueueRow) : List QueueRow :=
  List.insertionSort byDiscovered (q.filter (fun r => r.status = "pending"))

/-- The rows selected by the `SELECT ... LIMIT ?` of storage.py
`claim_batch`. -/
def claimSelect (q : List QueueRow) (n : Nat) : List QueueRow :=
  (pendingSorted q).take n

/-- storage.py `claim_batch` (the same statements are inlined in cli.py
`cmd_crawl`): select up to `batch_size` pending urls, oldest `discovered_at`
first; then `executemany` of `UPDATE queue SET status='in_progress',
attempts=attempts+1 WHERE url=?` over the selected urls; commit; return the
urls. -/
def claim_batch (c : Conn) (batch_size : Nat) : Conn × List String :=
  let urls := (claimSelect c.queue batch_size).map (fun r => r.url)
  let q' := c.queue.map (fun r =>
    if urls.contains r.url then
      { r with status := "in_progress", attempts := r.attempts + 1 }
    else r)
  ({ c with queue := q',
            totalChanges := c.totalChanges +
              (urls.map (fun u => c.queue.countP (fun r => r.url = u))).sum },
   urls)

/-- storage.py `mark_queue_done`:
`UPDATE queue SET status='done', last_error=NULL WHERE url=?`. -/
def mark_queue_done (c : Conn) (u : String) : Conn :=
  { c with
    queue := c.queue.map (fun r =>
      if r.url = u then { r with status := "done", last_error := none } else r),
    totalChanges := c.totalChanges + c.queue.countP (fun r => r.url = u) }

/-- storage.py `mark_queue_failed`:
`UPDATE queue SET status='failed', last_error=? WHERE url=?`, the error text
truncated to its first 2000 characters (`error[:2000]`). -/
def mark_queue_failed (c : Conn) (u : String) (error : String) : Conn :=
  { c with
    queue := c.queue.map (fun r =>
      if r.url = u then
        { r with status := "failed", last_error := some (error.take 2000) }
      else r),
    totalChanges := c.totalChanges + c.queue.countP (fun r => r.url = u) }

/-- cli.py `cmd_crawl` startup recovery step:
`UPDATE queue SET status='pending' WHERE status='in_progress'`. -/
def recover_interrupted (c : Conn) : Conn :=
  { c with
    queue := c.queue.map (fun r =>
      if r.status = "in_progress" then { r with status := "pending" } else r),
    totalChanges := c.totalChanges +
      c.queue.countP (fun r => r.status = "in_progress") }

/-- The `ON CONFLICT(url) DO UPDATE SET` clause of storage.py `upsert_book`:
every non-key column is set from the `excluded` (new) row. -/
def bookConflictUpdate (old b : BookRow) : BookRow :=
  { old with
    title := b.title
    authors := b.authors
    price := b.price
    rating := b.rating
    rating_count := b.rating_count
    genres := b.genres
    formats := b.formats
    description := b.description
    cover_url := b.cover_url
    pages := b.pages
    age_restriction := b.age_restriction
    in_series := b.in_series
    series_title := b.series_title
    format_text := b.format_text
    format_audio := b.format_audio
    format_paper := b.format_paper
    reviews_count := b.reviews_count
    quotations_count := b.quotations_count
    livelib_rating := b.livelib_rating
    livelib_rating_count := b.livelib_rating_count
    chapters := b.chapters
    scraped_at := b.scraped_at
    status := b.status
    error := b.error }

/-- storage.py `upsert_book`: `INSERT INTO books(...) VALUES(...) ON
CONFLICT(url) DO UPDATE SET <every non-key column>=excluded.<column>`,
then commit. -/
def upsert_book (c : Conn) (b : BookRow) : Conn :=
  if c.books.any (fun r => r.url = b.url) = true then
    { c with
      books := c.books.map (fun r =>
        if r.url = b.url then bookConflictUpdate r b else r),
      totalChanges := c.totalChanges + 1 }
  else
    { c with books := c.books ++ [b], totalChanges := c.totalChanges + 1 }

/-- `SELECT * FROM queue WHERE url=?`: the first matching row in rowid
order. -/
def findRow (q : List QueueRow) (u : String) : Option QueueRow :=
  q.find? (fun r => r.url = u)

/-- `SELECT * FROM books WHERE url=?`: the first matching row in rowid
order. -/
def findBook (bs : List BookRow) (u : String) : Option BookRow :=
  bs.find? (fun r => r.url = u)

/-! ### Helper lemmas about the store -/

theorem hasUrl_iff (q : List QueueRow) (u : String) :
    hasUrl q u = true ↔ ∃ r ∈ q, r.url = u := by
  simp [hasUrl, List.any_eq_true]

theorem find?_map_key {α : Type} (key : α → String) (g : α → α)
    (hg : ∀ x, key (g x) = key x) (l : List α) (u : String) :
    (l.map g).find? (fun x => key x = u) =
      (l.find? (fun x => key x = u)).map g := by
  rw [List.find?_map]
  have hfun : ((fun x => decide (key x = u)) ∘ g) = (fun x => decide (key x = u)) := by
    funext x
    simp [Function.comp, hg]
  rw [hfun]

theorem find?_eq_some_of_nodup {α : Type} (key : α → String) (l : List α)
    (hnd : (l.map key).Nodup) (r : α) (hr : r ∈ l) :
    l.find? (fun x => key x = key r) = some r := by
  induction l with
  | nil => cases hr
  | cons a l ih =>
    simp only [List.map_cons, List.nodup_cons] at hnd
    rcases List.mem_cons.mp hr with h | h
    · subst h
      simp [List.find?_cons]
    · have hne : key a ≠ key r := by
        intro hk
        exact hnd.1 (hk ▸ List.mem_map_of_mem key h)
      rw [List.find?_cons_of_neg]
      · exact ih hnd.2 h
      · simp [hne]

theorem mem_eq_of_nodup_key {α : Type} (key : α → String) (l : List α)
    (hnd : (l.map key).Nodup) (r s : α) (hr : r ∈ l) (hs : s ∈ l)
    (hk : key r = key s) : r = s := by
  induction l with
  | nil => cases hr
  | cons a l ih =>
    simp only [List.map_cons, List.nodup_cons] at hnd
    rcases List.mem_cons.mp hr with h | h <;> rcases List.mem_cons.mp hs with h' | h'
    · exact h.trans h'.symm
    · subst h
      exfalso
      apply hnd.1
      rw [hk]
      exact List.mem_map_of_mem key h'
    · subst h'
      exfalso
      apply hnd.1
      rw [← hk]
      exact List.mem_map_of_mem key h
    · exact ih hnd.2 h h'

/-! ### C5 — startup recovery -/

/-- C5: after the startup recovery step of `cmd_crawl`
(`UPDATE queue SET status='pending' WHERE status='in_progress'`), the list of
queued URLs is unchanged (nothing lost, nothing duplicated), no row is left
`in_progress`, every row that was `in_progress` is now `pending` with all its
other columns intact, every row in another status is untouched, and the
`books`/`reviews` tables are untouched. -/
theorem recover_interrupted_spec (c : Conn) :
    (recover_interrupted c).queue.map QueueRow.url = c.queue.map QueueRow.url ∧
    (∀ r ∈ (recover_interrupted c).queue, r.status ≠ "in_progress") ∧
    ((recover_interrupted c).queue.countP (fun r => r.status = "pending") =
      c.queue.countP (fun r => r.status = "pending" || r.status = "in_progress")) ∧
    (∀ (i : Nat) (r : QueueRow), c.queue[i]? = some r → r.status = "in_progress" →
      (recover_interrupted c).queue[i]? = some { r with status := "pending" }) ∧
    (∀ (i : Nat) (r : QueueRow), c.queue[i]? = some r → r.status ≠ "in_progress" →
      (recover_interrupted c).queue[i]? = some r) ∧
    (recover_interrupted c).books = c.books ∧
    (recover_interrupted c).reviews = c.reviews := by
  refine ⟨?_, ?_, ?_, ?_, ?_, rfl, rfl⟩
  · rw [recover_interrupted, List.map_map]
    apply List.map_congr_left
    intro r _
    by_cases h : r.status = "in_progress" <;> simp [h]
  · intro r hr
    rw [recover_interrupted] at hr
    simp only [List.mem_map] at hr
    obtain ⟨s, _, rfl⟩ := hr
    by_cases h : s.status = "in_progress" <;> simp [h]
  · rw [recover_interrupted, List.countP_map]
    apply List.countP_congr
    intro r _
    by_cases h : r.status = "in_progress" <;> simp [Function.comp, h]
  · intro i r hi hst
    rw [recover_interrupted]
    simp [List.getElem?_map, hi, hst]
  · intro i r hi hst
    rw [recover_interrupted]
    simp [List.getElem?_map, hi, hst]

/-- C5 witness: recovery on a concrete three-row queue. -/
theorem recover_interrupted_spec_witness :
    (recover_interrupted
        ⟨[⟨"a", "in_progress", 2, none, 0⟩, ⟨"b", "done", 1, none, 1⟩,
          ⟨"c", "in_progress", 1, some "e", 2⟩], [], [], 7⟩).queue =
      [⟨"a", "pending", 2, none, 0⟩, ⟨"b", "done", 1, none, 1⟩,
        ⟨"c", "pending", 1, some "e", 2⟩] ∧
    (recover_interrupted
        ⟨[⟨"a", "in_progress", 2, none, 0⟩, ⟨"b", "done", 1, none, 1⟩,
          ⟨"c", "in_progress", 1, some "e", 2⟩], [], [], 7⟩).queue[0]? =
      some ⟨"a", "pending", 2, none, 0⟩ := by
  have h := recover_interrupted_spec
    ⟨[⟨"a", "in_progress", 2, none, 0⟩, ⟨"b", "done", 1, none, 1⟩,
      ⟨"c", "in_progress", 1, some "e", 2⟩], [], [], 7⟩
  exact ⟨by decide, h.2.2.2.1 0 ⟨"a", "in_progress", 2, none, 0⟩ (by decide) (by decide)⟩

/-! ### C6 / C2 — enqueue -/

/-- The `executemany` fold of `enqueue_urls`, as a standalone function for
induction. -/
def enqueueFold (q : List QueueRow) (tc : Nat) (urls : List String) (now : Nat) :
    List QueueRow × Nat :=
  urls.foldl (fun acc u => insertOrIgnoreQueue acc.1 acc.2 u now) (q, tc)

theorem enqueue_urls_eq_fold (c : Conn) (urls : List String) (now : Nat) :
    enqueue_urls c urls now =
      ({ c with queue := (enqueueFold c.queue c.totalChanges urls now).1,
                totalChanges := (enqueueFold c.queue c.totalChanges urls now).2 },
       (enqueueFold c.queue c.totalChanges urls now).2) := rfl

theorem hasUrl_insertOrIgnore (q : List QueueRow) (tc : Nat) (u v : String) (now : Nat) :
    hasUrl (insertOrIgnoreQueue q tc v now).1 u =
      (hasUrl q u || (v = u : Bool)) := by
  by_cases h : hasUrl q v = true
  · rw [insertOrIgnoreQueue, if_pos h]
    by_cases huv : v = u
    · subst huv
      simp [h]
    · simp [huv]
  · rw [insertOrIgnoreQueue, if_neg h]
    simp [hasUrl, List.any_append, freshRow]

theorem hasUrl_enqueueFold (urls : List String) (q : List QueueRow) (tc : Nat)
    (u : String) (now : Nat) :
    hasUrl (enqueueFold q tc urls now).1 u =
      (hasUrl q u || urls.contains u) := by
  induction urls generalizing q tc with
  | nil => simp [enqueueFold]
  | cons v rest ih =>
    rw [enqueueFold, List.foldl_cons]
    show hasUrl (enqueueFold (insertOrIgnoreQueue q tc v now).1
      (insertOrIgnoreQueue q tc v now).2 rest now).1 u = _
    rw [ih, hasUrl_insertOrIgnore]
    by_cases huv : v = u
    · subst huv
      simp [List.contains_cons]
    · simp [List.contains_cons, huv, Ne.symm huv]

theorem enqueueFold_of_all_present (urls : List String) (q : List QueueRow) (tc : Nat)
    (now : Nat) (h : ∀ u ∈ urls, hasUrl q u = true) :
    enqueueFold q tc urls now = (q, tc) := by
  induction urls with
  | nil => rfl
  | cons v rest ih =>
    rw [enqueueFold, List.foldl_cons, insertOrIgnoreQueue,
      if_pos (h v (List.mem_cons_self v rest))]
    exact ih (fun u hu => h u (List.mem_cons_of_mem v hu))

/-- C6: enqueueing the same URL list a second time is a complete no-op on the
connection: the queue (row count, statuses, attempts, last errors,
discovery timestamps), the other tables and even the change counter are
exactly what the first enqueue left, whatever timestamps the two calls
observe. -/
theorem enqueue_idempotent (c : Conn) (urls : List String) (t1 t2 : Nat) :
    (enqueue_urls (enqueue_urls c urls t1).1 urls t2).1 = (enqueue_urls c urls t1).1 := by
  rw [enqueue_urls_eq_fold, enqueue_urls_eq_fold]
  have hall : ∀ u ∈ urls,
      hasUrl (enqueueFold c.queue c.totalChanges urls t1).1 u = true := by
    intro u hu
    rw [hasUrl_enqueueFold]
    simp [hu]
  rw [enqueueFold_of_all_present _ _ _ _ hall]

/-- Accounting of the fold: the returned counter plus the old row count equals
the old counter plus the new row count (each unit of `total_changes` growth is
exactly one inserted row). -/
theorem enqueueFold_count (urls : List String) (q : List QueueRow) (tc : Nat) (now : Nat) :
    (enqueueFold q tc urls now).2 + q.length =
      tc + (enqueueFold q tc urls now).1.length := by
  induction urls generalizing q tc with
  | nil => simp [enqueueFold]
  | cons v rest ih =>
    rw [enqueueFold, List.foldl_cons, insertOrIgnoreQueue]
    by_cases h : hasUrl q v = true
    · rw [if_pos h]
      exact ih q tc
    · rw [if_neg h]
      have h2 := ih (q ++ [freshRow v now]) (tc + 1)
      rw [enqueueFold] at h2
      simp only [List.length_append, List.length_cons, List.length_nil] at h2
      dsimp only
      omega

/-- For a duplicate-free url list, the queue grows by exactly the number of
argument urls that were not already present. -/
theorem enqueueFold_length_nodup (urls : List String) (q : List QueueRow) (tc : Nat)
    (now : Nat) (hnd : urls.Nodup) :
    (enqueueFold q tc urls now).1.length =
      q.length + (urls.filter (fun u => !hasUrl q u)).length := by
  induction urls generalizing q tc with
  | nil => simp [enqueueFold]
  | cons v rest ih =>
    simp only [List.nodup_cons] at hnd
    rw [enqueueFold, List.foldl_cons, insertOrIgnoreQueue]
    by_cases h : hasUrl q v = true
    · rw [if_pos h]
      have := ih q tc hnd.2
      rw [enqueueFold] at this
      simpa [List.filter_cons, h] using this
    · rw [if_neg h]
      have hfc : rest.filter (fun u => !hasUrl (q ++ [freshRow v now]) u)
          = rest.filter (fun u => !hasUrl q u) := by
        apply List.filter_congr
        intro u hu
        have huv : ¬v = u := fun hvu => hnd.1 (hvu ▸ hu)
        have : hasUrl (q ++ [freshRow v now]) u = hasUrl q u := by
          simp [hasUrl, List.any_append, freshRow, huv]
        rw [this]
      have h2 := ih (q ++ [freshRow v now]) (tc + 1) hnd.2
      rw [enqueueFold] at h2
      rw [h2, hfc]
      simp [List.filter_cons, h, Nat.add_comm, Nat.add_assoc, Nat.add_left_comm]

/-- C2 counterexample: on a fresh connection, enqueue `["a"]` (returns 1,
correctly), then enqueue `["b"]` on the same connection.  Exactly one of the
argument URLs (`"b"`) is newly inserted and not already present, but the call
returns `con.total_changes = 2`. -/
theorem enqueue_urls_return_counterexample :
    (enqueue_urls (enqueue_urls (⟨[], [], [], 0⟩ : Conn) ["a"] 0).1 ["b"] 1).2 = 2 ∧
    (["b"].filter
      (fun u => !hasUrl ((enqueue_urls (⟨[], [], [], 0⟩ : Conn) ["a"] 0).1).queue u)).length
      = 1 ∧
    (2 : Nat) ≠ 1 := by
  decide

/-- C2 (amended): `enqueue_urls` returns the connection's cumulative
`total_changes` counter, so the return value exceeds the count of newly
inserted URLs by whatever changes the connection had already accumulated:
always, return + old row count = old counter + new row count, and on a
connection whose counter is still zero the return value is exactly the number
of (distinct) argument URLs not already present in the queue, URLs already
present in any status contributing zero. -/
theorem enqueue_urls_count (c : Conn) (urls : List String) (now : Nat)
    (hnd : urls.Nodup) :
    (enqueue_urls c urls now).2 + c.queue.length
      = c.totalChanges + (enqueue_urls c urls now).1.queue.length ∧
    (c.totalChanges = 0 →
      (enqueue_urls c urls now).2
        = (urls.filter (fun u => !hasUrl c.queue u)).length) := by
  constructor
  · rw [enqueue_urls_eq_fold]
    exact enqueueFold_count urls c.queue c.totalChanges now
  · intro h0
    rw [enqueue_urls_eq_fold]
    have h1 := enqueueFold_count urls c.queue c.totalChanges now
    have h2 := enqueueFold_length_nodup urls c.queue c.totalChanges now hnd
    rw [h0] at h1 h2 ⊢
    omega

/-- C2 witness: on a fresh connection holding a queue with `"a"`, enqueuing
`["a", "b"]` returns exactly 1. -/
theorem enqueue_urls_count_witness :
    ["a", "b"].Nodup ∧
    (enqueue_urls (⟨[freshRow "a" 0], [], [], 0⟩ : Conn) ["a", "b"] 1).2 +
      (⟨[freshRow "a" 0], [], [], 0⟩ : Conn).queue.length =
      (⟨[freshRow "a" 0], [], [], 0⟩ : Conn).totalChanges +
      (enqueue_urls (⟨[freshRow "a" 0], [], [], 0⟩ : Conn) ["a", "b"] 1).1.queue.length ∧
    (enqueue_urls (⟨[freshRow "a" 0], [], [], 0⟩ : Conn) ["a", "b"] 1).2 =
      (["a", "b"].filter
        (fun u => !hasUrl (⟨[freshRow "a" 0], [], [], 0⟩ : Conn).queue u)).length := by
  have h := enqueue_urls_count (⟨[freshRow "a" 0], [], [], 0⟩ : Conn) ["a", "b"] 1
    (by decide)
  exact ⟨by decide, h.1, h.2 (by decide)⟩

/-! ### C10 — mark_queue_done / mark_queue_failed frame -/

/-- C10: `mark_queue_done` and `mark_queue_failed` touch only the queue row
keyed by `u`, and of that row only `status` and `last_error` (`attempts` and
`discovered_at` are kept); every other queue row keeps its exact contents and
position, no row is created or deleted, the `books` and `reviews` tables are
untouched; and when no queue row has key `u`, both operations leave the whole
store unchanged and raise no error. -/
theorem mark_done_failed_frame (c : Conn) (u : String) (err : String) :
    (mark_queue_done c u).books = c.books ∧
    (mark_queue_done c u).reviews = c.reviews ∧
    (mark_queue_failed c u err).books = c.books ∧
    (mark_queue_failed c u err).reviews = c.reviews ∧
    (mark_queue_done c u).queue.length = c.queue.length ∧
    (mark_queue_failed c u err).queue.length = c.queue.length ∧
    (∀ (i : Nat) (r : QueueRow), c.queue[i]? = some r → r.url ≠ u →
      (mark_queue_done c u).queue[i]? = some r ∧
      (mark_queue_failed c u err).queue[i]? = some r) ∧
    (∀ (i : Nat) (r : QueueRow), c.queue[i]? = some r → r.url = u →
      (mark_queue_done c u).queue[i]? =
        some { r with status := "done", last_error := none } ∧
      (mark_queue_failed c u err).queue[i]? =
        some { r with status := "failed", last_error := some (err.take 2000) }) ∧
    (hasUrl c.queue u = false →
      mark_queue_done c u = c ∧ mark_queue_failed c u err = c) := by
  refine ⟨rfl, rfl, rfl, rfl, by simp [mark_queue_done], by simp [mark_queue_failed],
    ?_, ?_, ?_⟩
  · intro i r hi hne
    constructor
    · rw [mark_queue_done]
      simp [List.getElem?_map, hi, hne]
    · rw [mark_queue_failed]
      simp [List.getElem?_map, hi, hne]
  · intro i r hi heq
    constructor
    · rw [mark_queue_done]
      simp [List.getElem?_map, hi, heq]
    · rw [mark_queue_failed]
      simp [List.getElem?_map, hi, heq]
  · intro habs
    have hnone : ∀ r ∈ c.queue, ¬(r.url = u) := by
      intro r hr hru
      have : hasUrl c.queue u = true := (hasUrl_iff c.queue u).mpr ⟨r, hr, hru⟩
      rw [habs] at this
      cases this
    have hcount : c.queue.countP (fun r => r.url = u) = 0 := by
      rw [List.countP_eq_zero]
      intro r hr
      simpa using hnone r hr
    have hmap : ∀ f : QueueRow → QueueRow,
        (c.queue.map (fun r => if r.url = u then f r else r)) = c.queue := by
      intro f
      have := List.map_congr_left (l := c.queue)
        (f := fun r => if r.url = u then f r else r) (g := id)
        (fun r hr => by simp [hnone r hr])
      simpa using this
    constructor
    · rw [mark_queue_done, hmap, hcount]
      rfl
    · rw [mark_queue_failed, hmap, hcount]
      rfl

/-- C10 witness: both operations applied at a concrete two-row queue, and at
a key that is absent. -/
theorem mark_done_failed_frame_witness :
    ((mark_queue_done (⟨[freshRow "a" 0, freshRow "b" 1], [], [], 0⟩ : Conn)
        "a").queue[1]? = some (freshRow "b" 1)) ∧
    ((mark_queue_done (⟨[freshRow "a" 0, freshRow "b" 1], [], [], 0⟩ : Conn)
        "a").queue[0]? =
      some { freshRow "a" 0 with status := "done", last_error := none }) ∧
    ((mark_queue_failed (⟨[freshRow "a" 0, freshRow "b" 1], [], [], 0⟩ : Conn)
        "a" "boom").queue[0]? =
      some { freshRow "a" 0 with status := "failed", last_error := some ("boom".take 2000) }) ∧
    (mark_queue_done (⟨[freshRow "a" 0, freshRow "b" 1], [], [], 0⟩ : Conn) "zz"
      = (⟨[freshRow "a" 0, freshRow "b" 1], [], [], 0⟩ : Conn)) := by
  have h1 := mark_done_failed_frame
    (⟨[freshRow "a" 0, freshRow "b" 1], [], [], 0⟩ : Conn) "a" "boom"
  have h2 := mark_done_failed_frame
    (⟨[freshRow "a" 0, freshRow "b" 1], [], [], 0⟩ : Conn) "zz" "boom"
  refine ⟨(h1.2.2.2.2.2.2.1 1 (freshRow "b" 1) (by decide) (by decide)).1,
    (h1.2.2.2.2.2.2.2.1 0 (freshRow "a" 0) (by decide) (by decide)).1,
    (h1.2.2.2.2.2.2.2.1 0 (freshRow "a" 0) (by decide) (by decide)).2,
    (h2.2.2.2.2.2.2.2.2 (by decide)).1⟩

/-! ### C4 — upsert_book -/

/-- The `DO UPDATE SET` clause lists every non-key column, so on a key
conflict the stored row becomes exactly the excluded (new) row. -/
theorem bookConflictUpdate_eq (r b : BookRow) (h : r.url = b.url) :
    bookConflictUpdate r b = b := by
  cases r
  cases b
  simp only [bookConflictUpdate, BookRow.mk.injEq]
  simp_all

theorem countP_le_one_of_nodup_key {α : Type} (key : α → String) (l : List α)
    (hnd : (l.map key).Nodup) (u : String) :
    l.countP (fun x => key x = u) ≤ 1 := by
  induction l with
  | nil => simp
  | cons a l ih =>
    simp only [List.map_cons, List.nodup_cons] at hnd
    by_cases h : key a = u
    · have hz : l.countP (fun x => key x = u) = 0 := by
        rw [List.countP_eq_zero]
        intro x hx
        simp only [decide_eq_true_eq]
        intro hxu
        exact hnd.1 (by rw [h, ← hxu]; exact List.mem_map_of_mem key hx)
      rw [List.countP_cons]
      simp [h, hz]
    · rw [List.countP_cons]
      simp only [h]
      simpa using ih hnd.2

/-- C4: upserting a book row for a URL and reading it back yields exactly the
written row; the `books` table keeps at most (and for this URL exactly) one
row per URL; rows for other URLs keep their multiplicity; and a second upsert
for the same URL yields exactly the second row, with no field surviving from
the first version. -/
theorem upsert_book_roundtrip (c : Conn) (b b' : BookRow)
    (hnd : (c.books.map BookRow.url).Nodup) (hurl : b'.url = b.url) :
    findBook (upsert_book c b).books b.url = some b ∧
    ((upsert_book c b).books.map BookRow.url).Nodup ∧
    (upsert_book c b).books.countP (fun r => r.url = b.url) = 1 ∧
    (∀ u, u ≠ b.url → (upsert_book c b).books.countP (fun r => r.url = u)
      = c.books.countP (fun r => r.url = u)) ∧
    findBook (upsert_book (upsert_book c b) b').books b.url = some b' := by
  have hg : ∀ (x b0 : BookRow),
      ((if x.url = b0.url then bookConflictUpdate x b0 else x) : BookRow).url = x.url := by
    intro x b0
    by_cases h : x.url = b0.url <;> simp [h, bookConflictUpdate]
  have hfindpos : ∀ (bs : List BookRow) (b0 : BookRow),
      bs.any (fun r => r.url = b0.url) = true →
      (bs.map (fun r => if r.url = b0.url then bookConflictUpdate r b0 else r)).find?
        (fun r => r.url = b0.url) = some b0 := by
    intro bs b0 hp
    rw [find?_map_key BookRow.url
      (fun r => if r.url = b0.url then bookConflictUpdate r b0 else r)
      (fun x => hg x b0) bs b0.url]
    have hex : ∃ x ∈ bs, (fun r => decide (r.url = b0.url)) x = true := by
      simpa [List.any_eq_true] using hp
    obtain ⟨r0, hr0, hp0⟩ := hex
    have hsome : (bs.find? (fun r => r.url = b0.url)).isSome := by
      rw [List.find?_isSome]
      exact ⟨r0, hr0, hp0⟩
    obtain ⟨r1, hr1⟩ := Option.isSome_iff_exists.mp hsome
    have hp1 : r1.url = b0.url := by simpa using List.find?_some hr1
    rw [hr1]
    simp [hp1, bookConflictUpdate_eq r1 b0 hp1]
  have hfindapp : ∀ (bs : List BookRow) (b0 : BookRow),
      bs.any (fun r => r.url = b0.url) = false →
      (bs ++ [b0]).find? (fun r => r.url = b0.url) = some b0 := by
    intro bs b0 hp
    have hall : ∀ x ∈ bs, ¬(x.url = b0.url) := by
      simpa [List.any_eq_false] using hp
    induction bs with
    | nil => simp [List.find?_cons]
    | cons a l ih =>
      rw [List.cons_append, List.find?_cons_of_neg]
      · exact ih (by simpa [List.any_eq_false] using
          fun x hx => hall x (List.mem_cons_of_mem a hx))
          (fun x hx => hall x (List.mem_cons_of_mem a hx))
      · simp [hall a (List.mem_cons_self a l)]
  have hmapurl : ∀ (bs : List BookRow) (b0 : BookRow),
      (bs.map (fun r => if r.url = b0.url then bookConflictUpdate r b0 else r)).map
        BookRow.url = bs.map BookRow.url := by
    intro bs b0
    rw [List.map_map]
    exact List.map_congr_left (fun x _ => hg x b0)
  by_cases hmem : c.books.any (fun r => r.url = b.url) = true
  · -- the url is already present: the conflict branch is taken
    have h1 : findBook (upsert_book c b).books b.url = some b := by
      rw [upsert_book, if_pos hmem]
      exact hfindpos c.books b hmem
    have hnd1 : ((upsert_book c b).books.map BookRow.url).Nodup := by
      rw [upsert_book, if_pos hmem]
      rw [hmapurl]
      exact hnd
    have hcnt : (upsert_book c b).books.countP (fun r => r.url = b.url) = 1 := by
      rw [upsert_book, if_pos hmem]
      simp only [List.countP_map]
      have he : c.books.countP
          ((fun r => decide (r.url = b.url)) ∘
            (fun r => if r.url = b.url then bookConflictUpdate r b else r)) =
          c.books.countP (fun r => decide (r.url = b.url)) := by
        apply List.countP_congr
        intro x _
        simp [Function.comp, hg x b]
      rw [he]
      have hle := countP_le_one_of_nodup_key BookRow.url c.books hnd b.url
      have hpos : 0 < c.books.countP (fun r => decide (r.url = b.url)) := by
        rw [List.countP_pos_iff]
        simpa [List.any_eq_true] using hmem
      omega
    have hoth : ∀ u, u ≠ b.url → (upsert_book c b).books.countP
        (fun r => r.url = u) = c.books.countP (fun r => r.url = u) := by
      intro u _
      rw [upsert_book, if_pos hmem]
      simp only [List.countP_map]
      apply List.countP_congr
      intro x _
      simp [Function.comp, hg x b]
    refine ⟨h1, hnd1, hcnt, hoth, ?_⟩
    have hmem2 : (upsert_book c b).books.any (fun r => r.url = b'.url) = true := by
      have hb : b ∈ (upsert_book c b).books := by
        have := List.mem_of_find?_eq_some h1
        exact this
      rw [List.any_eq_true]
      exact ⟨b, hb, by simp [hurl]⟩
    rw [upsert_book, if_pos hmem2]
    have := hfindpos (upsert_book c b).books b' hmem2
    rw [hurl] at this ⊢
    exact this
  · -- fresh insert
    have hmem' : c.books.any (fun r => r.url = b.url) = false :=
      Bool.eq_false_iff.mpr hmem
    have h1 : findBook (upsert_book c b).books b.url = some b := by
      rw [upsert_book, if_neg hmem]
      exact hfindapp c.books b hmem'
    have hnd1 : ((upsert_book c b).books.map BookRow.url).Nodup := by
      rw [upsert_book, if_neg hmem]
      simp only [List.map_append, List.map_cons, List.map_nil]
      rw [List.nodup_append]
      refine ⟨hnd, List.nodup_singleton _, ?_⟩
      intro x hx
      simp only [List.mem_singleton]
      intro hxb
      obtain ⟨r, hr, hru⟩ := List.mem_map.mp hx
      have : r.url = b.url := by rw [hru]; exact hxb
      have hfalse : ∀ y ∈ c.books, ¬(y.url = b.url) := by
        simpa [List.any_eq_false] using hmem'
      exact hfalse r hr this
    have hcnt : (upsert_book c b).books.countP (fun r => r.url = b.url) = 1 := by
      rw [upsert_book, if_neg hmem]
      rw [List.countP_append]
      have hfalse : ∀ y ∈ c.books, ¬(y.url = b.url) := by
        simpa [List.any_eq_false] using hmem'
      have hz : c.books.countP (fun r => r.url = b.url) = 0 := by
        rw [List.countP_eq_zero]
        intro x hx
        simpa using hfalse x hx
      rw [hz]
      simp
    have hoth : ∀ u, u ≠ b.url → (upsert_book c b).books.countP
        (fun r => r.url = u) = c.books.countP (fun r => r.url = u) := by
      intro u hu
      rw [upsert_book, if_neg hmem]
      rw [List.countP_append]
      have hbu : ¬b.url = u := fun h => hu h.symm
      have h0 : ([b] : List BookRow).countP (fun r => r.url = u) = 0 := by
        simp [hbu]
      rw [h0]
      simp
    refine ⟨h1, hnd1, hcnt, hoth, ?_⟩
    have hmem2 : (upsert_book c b).books.any (fun r => r.url = b'.url) = true := by
      have hb : b ∈ (upsert_book c b).books := List.mem_of_find?_eq_some h1
      rw [List.any_eq_true]
      exact ⟨b, hb, by simp [hurl]⟩
    rw [upsert_book, if_pos hmem2]
    have := hfindpos (upsert_book c b).books b' hmem2
    rw [hurl] at this ⊢
    exact this

/-- A sample extracted book row used to witness C4. -/
def bookA : BookRow :=
  { (default : BookRow) with url := "u", title := "t1", price := "100,00" }

/-- A second version of the same book (same URL, different fields). -/
def bookB : BookRow :=
  { (default : BookRow) with url := "u", title := "t2", price := "200,00" }

/-- C4 witness: round-trip and full overwrite on a concrete store. -/
theorem upsert_book_roundtrip_witness :
    findBook (upsert_book (⟨[], [], [], 0⟩ : Conn) bookA).books bookA.url
      = some bookA ∧
    findBook (upsert_book (upsert_book (⟨[], [], [], 0⟩ : Conn) bookA) bookB).books
      bookA.url = some bookB := by
  have h := upsert_book_roundtrip (⟨[], [], [], 0⟩ : Conn) bookA bookB
    (by decide) (by decide)
  exact ⟨h.1, h.2.2.2.2⟩

/-! ### C1 — claim_batch -/

theorem contains_of_mem {a : String} {l : List String} (h : a ∈ l) :
    l.contains a = true := by
  rw [List.contains_iff_exists_mem_beq]
  exact ⟨a, h, by simp⟩

theorem not_contains_of_not_mem {a : String} {l : List String} (h : a ∉ l) :
    l.contains a = false := by
  cases hc : l.contains a
  · rfl
  · rw [List.contains_iff_exists_mem_beq] at hc
    obtain ⟨x, hx, hb⟩ := hc
    have hax : a = x := by simpa using hb
    exact absurd (hax ▸ hx) h

theorem claim_batch_snd (c : Conn) (n : Nat) :
    (claim_batch c n).2 = (claimSelect c.queue n).map (fun r => r.url) := rfl

theorem claim_batch_queue (c : Conn) (n : Nat) :
    (claim_batch c n).1.queue = c.queue.map (fun r =>
      if ((claimSelect c.queue n).map (fun r => r.url)).contains r.url then
        { r with status := "in_progress", attempts := r.attempts + 1 }
      else r) := rfl

theorem claim_batch_books (c : Conn) (n : Nat) :
    (claim_batch c n).1.books = c.books := rfl

theorem mem_claimSelect (q : List QueueRow) (n : Nat) (r : QueueRow)
    (h : r ∈ claimSelect q n) : r ∈ q ∧ r.status = "pending" := by
  have h1 : r ∈ pendingSorted q := List.take_subset n _ h
  have h2 : r ∈ q.filter (fun s => s.status = "pending") :=
    (List.perm_insertionSort byDiscovered _).mem_iff.mp h1
  have h3 := List.mem_filter.mp h2
  exact ⟨h3.1, by simpa using h3.2⟩

/-- Every url a claim returns came from a row that was `pending` before the
call. -/
theorem claim_batch_mem_pending (c : Conn) (n : Nat) :
    ∀ u ∈ (claim_batch c n).2, ∃ r ∈ c.queue, r.url = u ∧ r.status = "pending" := by
  intro u hu
  rw [claim_batch_snd] at hu
  obtain ⟨r, hr, rfl⟩ := List.mem_map.mp hu
  obtain ⟨hq, hp⟩ := mem_claimSelect c.queue n r hr
  exact ⟨r, hq, rfl, hp⟩

/-- The claim update rewrites rows in place: the url column is untouched. -/
theorem claim_batch_map_url (c : Conn) (n : Nat) :
    (claim_batch c n).1.queue.map QueueRow.url = c.queue.map QueueRow.url := by
  rw [claim_batch_queue, List.map_map]
  apply List.map_congr_left
  intro r _
  simp only [Function.comp_apply]
  by_cases h : ((claimSelect c.queue n).map (fun r => r.url)).contains r.url = true
  · rw [if_pos h]
  · rw [if_neg h]

/-- C1: `claim_batch` returns at most `batch_size` urls, each of which had
status `pending` before the call; the selected rows are ordered (and chosen)
oldest `discovered_at` first among the pending rows; after the call each
returned url's row has status `in_progress` and its `attempts` counter
incremented by exactly one while every other row is untouched; and a
subsequent `claim_batch` on the resulting store returns a disjoint url set, so
no url is handed out twice while it remains unresolved. -/
theorem claim_batch_spec (c : Conn) (n : Nat)
    (hnd : (c.queue.map QueueRow.url).Nodup) :
    (claim_batch c n).2.length ≤ n ∧
    (∀ u ∈ (claim_batch c n).2, ∃ r ∈ c.queue, r.url = u ∧ r.status = "pending") ∧
    List.Sorted byDiscovered (claimSelect c.queue n) ∧
    (∀ r ∈ claimSelect c.queue n, ∀ s ∈ (pendingSorted c.queue).drop n,
      r.discovered_at ≤ s.discovered_at) ∧
    (∀ r ∈ c.queue, r.url ∈ (claim_batch c n).2 →
      findRow (claim_batch c n).1.queue r.url =
        some { r with status := "in_progress", attempts := r.attempts + 1 }) ∧
    (∀ r ∈ c.queue, r.url ∉ (claim_batch c n).2 →
      findRow (claim_batch c n).1.queue r.url = some r) ∧
    (∀ m, ∀ u ∈ (claim_batch (claim_batch c n).1 m).2, u ∉ (claim_batch c n).2) := by
  have hsorted : List.Sorted byDiscovered (pendingSorted c.queue) :=
    List.sorted_insertionSort byDiscovered (c.queue.filter (fun s => s.status = "pending"))
  have hg : ∀ r : QueueRow,
      ((if ((claimSelect c.queue n).map (fun r => r.url)).contains r.url then
        ({ r with status := "in_progress", attempts := r.attempts + 1 } : QueueRow)
      else r)).url = r.url := by
    intro r
    by_cases h : ((claimSelect c.queue n).map (fun r => r.url)).contains r.url = true
    · rw [if_pos h]
    · rw [if_neg h]
  refine ⟨?_, claim_batch_mem_pending c n, ?_, ?_, ?_, ?_, ?_⟩
  · rw [claim_batch_snd, List.length_map]
    exact List.length_take_le n _
  · exact hsorted.sublist (List.take_sublist n _)
  · intro r hr s hs
    exact hsorted.rel_of_mem_take_of_mem_drop hr hs
  · intro r hr hmem
    rw [claim_batch_snd] at hmem
    rw [claim_batch_queue, findRow, find?_map_key QueueRow.url _ hg]
    have hfind : findRow c.queue r.url = some r :=
      find?_eq_some_of_nodup QueueRow.url c.queue hnd r hr
    rw [findRow] at hfind
    rw [hfind]
    simp only [Option.map]
    rw [if_pos (contains_of_mem hmem)]
  · intro r hr hmem
    rw [claim_batch_snd] at hmem
    rw [claim_batch_queue, findRow, find?_map_key QueueRow.url _ hg]
    have hfind : findRow c.queue r.url = some r :=
      find?_eq_some_of_nodup QueueRow.url c.queue hnd r hr
    rw [findRow] at hfind
    rw [hfind]
    simp only [Option.map]
    rw [if_neg]
    rw [not_contains_of_not_mem hmem]
    simp
  · intro m u hu2 hu1
    -- u came from a pending row of the post-claim queue …
    obtain ⟨r2, hr2, hr2u, hr2p⟩ := claim_batch_mem_pending (claim_batch c n).1 m u hu2
    -- … but u was claimed, so its (unique) row is in_progress there
    obtain ⟨r1, hr1, hr1u, _⟩ := claim_batch_mem_pending c n u hu1
    have h5 : findRow (claim_batch c n).1.queue r1.url =
        some { r1 with status := "in_progress", attempts := r1.attempts + 1 } := by
      rw [claim_batch_queue, findRow, find?_map_key QueueRow.url _ hg]
      have hfind : findRow c.queue r1.url = some r1 :=
        find?_eq_some_of_nodup QueueRow.url c.queue hnd r1 hr1
      rw [findRow] at hfind
      rw [hfind]
      simp only [Option.map]
      rw [if_pos (contains_of_mem (hr1u ▸ hu1))]
    have hx : ({ r1 with status := "in_progress", attempts := r1.attempts + 1 } : QueueRow)
        ∈ (claim_batch c n).1.queue :=
      List.mem_of_find?_eq_some h5
    have hnd' : ((claim_batch c n).1.queue.map QueueRow.url).Nodup := by
      rw [claim_batch_map_url]
      exact hnd
    have hsame : r2 =
        ({ r1 with status := "in_progress", attempts := r1.attempts + 1 } : QueueRow) := by
      apply mem_eq_of_nodup_key QueueRow.url _ hnd' r2 _ hr2 hx
      show r2.url = r1.url
      rw [hr2u, hr1u]
    have : r2.status = "in_progress" := by rw [hsame]
    rw [hr2p] at this
    exact absurd this (by decide)

/-- Concrete queue used to witness C1: three pending rows discovered at times
5, 1, 3 and one finished row. -/
def connW : Conn :=
  ⟨[freshRow "b" 5, freshRow "a" 1,
    { freshRow "d" 0 with status := "done" }, freshRow "c" 3], [], [], 0⟩

/-- C1 witness: claiming 2 from `connW` returns the two oldest pending urls,
marks them `in_progress` with `attempts` bumped to 1, and a second claim
cannot return an already-claimed url. -/
theorem claim_batch_spec_witness :
    (claim_batch connW 2).2.length ≤ 2 ∧
    findRow (claim_batch connW 2).1.queue "a"
      = some { freshRow "a" 1 with status := "in_progress", attempts := 1 } ∧
    "b" ∉ (claim_batch connW 2).2 := by
  have h := claim_batch_spec connW 2 (by decide)
  refine ⟨h.1, ?_, ?_⟩
  · exact h.2.2.2.2.1 (freshRow "a" 1) (by decide) (by decide)
  · exact h.2.2.2.2.2.2 2 "b" (by decide)

/-! ### http.py — rate limiter (C8) and fetch retry loop (C7) -/

/-- http.py `FetchConfig` (defaults `timeout_s=30.0`, `min_delay_s=0.5`,
`max_delay_s=1.5`, `max_retries=4`); the float fields are modelled as
rationals. -/
structure FetchConfig where
  timeout_s : ℚ
  min_delay_s : ℚ
  max_delay_s : ℚ
  max_retries : Nat

/-- http.py `polite_sleep`, as the pure transition it performs on the shared
watermark `_next_allowed_ts` while holding `_rate_lock`: given the current
clock `now` (`time.monotonic()`) and the drawn delay
(`random.uniform(cfg.min_delay_s, cfg.max_delay_s)`), the call's assigned
slot is `wake_at = max(now, _next_allowed_ts)`, the watermark advances to
`wake_at + delay`, and the caller then sleeps `max(0.0, wake_at - now)`.
Returns (assigned slot `wake_at`, sleep duration, new watermark). -/
def polite_sleep (nextAllowed now delay : ℚ) : ℚ × ℚ × ℚ :=
  (max now nextAllowed, max 0 (max now nextAllowed - now),
    max now nextAllowed + delay)

/-- A sequence of `polite_sleep` calls.  Each call reads and advances the
watermark as one atomic step under `_rate_lock`, so every concurrent
interleaving of calls is some sequence of these transitions; `calls` lists
the `(now, delay)` pair each call observes, in lock-acquisition order.
Returns the assigned slots in order, plus the final watermark. -/
def runCalls (nextAllowed : ℚ) : List (ℚ × ℚ) → List ℚ × ℚ
  | [] => ([], nextAllowed)
  | (now, d) :: rest =>
    let s := polite_sleep nextAllowed now d
    let p := runCalls s.2.2 rest
    (s.1 :: p.1, p.2)

theorem runCalls_length (st : ℚ) (calls : List (ℚ × ℚ)) :
    (runCalls st calls).1.length = calls.length := by
  induction calls generalizing st with
  | nil => rfl
  | cons p rest ih =>
    obtain ⟨now, d⟩ := p
    simp [runCalls, ih]

theorem runCalls_head_ge (st : ℚ) (calls : List (ℚ × ℚ)) (h : calls ≠ []) :
    st ≤ (runCalls st calls).1.headD 0 := by
  match calls with
  | [] => exact absurd rfl h
  | (now, d) :: rest =>
    show st ≤ max now st
    exact le_max_right now st

theorem runCalls_watermark_mono (st : ℚ) (calls : List (ℚ × ℚ))
    (h : ∀ p ∈ calls, 0 ≤ p.2) : st ≤ (runCalls st calls).2 := by
  induction calls generalizing st with
  | nil => exact le_refl st
  | cons p rest ih =>
    obtain ⟨now, d⟩ := p
    have h1 : st ≤ max now st + d := by
      have := le_max_right now st
      have hd := h (now, d) (List.mem_cons_self _ _)
      simp only at hd
      linarith
    exact le_trans h1 (ih (max now st + d) (fun q hq => h q (List.mem_cons_of_mem _ hq)))

theorem runCalls_chain (a : ℚ) (st : ℚ) (calls : List (ℚ × ℚ))
    (h : ∀ p ∈ calls, a ≤ p.2) :
    List.Chain' (fun x y => x + a ≤ y) (runCalls st calls).1 := by
  induction calls generalizing st with
  | nil => exact List.chain'_nil
  | cons p rest ih =>
    obtain ⟨now, d⟩ := p
    match rest with
    | [] => simp [runCalls]
    | (now2, d2) :: rest2 =>
      have hrec := ih (max now st + d) (fun q hq => h q (List.mem_cons_of_mem _ hq))
      show List.Chain' _ (max now st :: (runCalls (max now st + d) ((now2, d2) :: rest2)).1)
      rw [show (runCalls (max now st + d) ((now2, d2) :: rest2)).1 =
        max now2 (max now st + d) ::
          (runCalls (max now2 (max now st + d) + d2) rest2).1 from rfl]
      rw [List.chain'_cons]
      constructor
      · have hd : a ≤ d := (h (now, d) (List.mem_cons_self _ _))
        have := le_max_right now2 (max now st + d)
        linarith
      · rw [show max now2 (max now st + d) ::
          (runCalls (max now2 (max now st + d) + d2) rest2).1 =
            (runCalls (max now st + d) ((now2, d2) :: rest2)).1 from rfl]
        exact hrec

theorem runCalls_first_last (a : ℚ) (st : ℚ) (calls : List (ℚ × ℚ))
    (ha : 0 ≤ a) (h : ∀ p ∈ calls, a ≤ p.2) (hne : calls ≠ []) :
    (runCalls st calls).1.headD 0 + ((calls.length - 1 : Nat) : ℚ) * a ≤
      (runCalls st calls).1.getLastD 0 := by
  induction calls generalizing st with
  | nil => exact absurd rfl hne
  | cons p rest ih =>
    obtain ⟨now, d⟩ := p
    match rest with
    | [] =>
      show max now st + ((0 : Nat) : ℚ) * a ≤ max now st
      simp
    | (now2, d2) :: rest2 =>
      have hrest : ((now2, d2) :: rest2 : List (ℚ × ℚ)) ≠ [] := by simp
      have hr := ih (max now st + d)
        (fun q hq => h q (List.mem_cons_of_mem _ hq)) hrest
      have hhead : max now st + d ≤
          (runCalls (max now st + d) ((now2, d2) :: rest2)).1.headD 0 :=
        runCalls_head_ge (max now st + d) _ hrest
      have hd : a ≤ d := h (now, d) (List.mem_cons_self _ _)
      have hlast : (runCalls st ((now, d) :: (now2, d2) :: rest2)).1.getLastD 0 =
          (runCalls (max now st + d) ((now2, d2) :: rest2)).1.getLastD 0 := by
        show (max now st ::
          (runCalls (max now st + d) ((now2, d2) :: rest2)).1).getLastD 0 = _
        rw [List.getLastD_cons]
        match hm : (runCalls (max now st + d) ((now2, d2) :: rest2)).1 with
        | [] =>
          have := runCalls_length (max now st + d) ((now2, d2) :: rest2)
          rw [hm] at this
          simp at this
        | x :: xs => rfl
      rw [hlast]
      have hheadfull : (runCalls st ((now, d) :: (now2, d2) :: rest2)).1.headD 0 =
          max now st := rfl
      rw [hheadfull]
      have hlen : ((((now, d) :: (now2, d2) :: rest2 : List (ℚ × ℚ)).length - 1 : Nat) : ℚ) =
          ((((now2, d2) :: rest2 : List (ℚ × ℚ)).length - 1 : Nat) : ℚ) + 1 := by
        simp only [List.length_cons]
        push_cast [Nat.succ_sub_one]
        ring
      rw [hlen]
      have hlen2 : (0 : ℚ) ≤ ((((now2, d2) :: rest2 : List (ℚ × ℚ)).length - 1 : Nat) : ℚ) := by
        positivity
      nlinarith [hr, hhead, hd, hlen2, ha]

/-- C8 (amended): the shared watermark never moves backwards; every call's
assigned slot is at least `min_delay` after the previously assigned slot, so
K calls span at least `(K-1)·min_delay` between the first and the last
assigned slot, whatever the interleaving of workers; and a call's slot
exceeds the watermark only when the wall clock already does (when the caller
arrives no later than the watermark its slot is exactly the watermark, hence
at most `max_delay` after the previous slot — after an idle gap the slot
instead follows the clock, which is the part of the original claim that
fails). -/
theorem polite_sleep_pacing (a b st : ℚ) (calls : List (ℚ × ℚ))
    (ha : 0 ≤ a) (hab : ∀ p ∈ calls, a ≤ p.2 ∧ p.2 ≤ b) :
    st ≤ (runCalls st calls).2 ∧
    List.Chain' (fun x y => x + a ≤ y) (runCalls st calls).1 ∧
    (calls ≠ [] →
      (runCalls st calls).1.headD 0 + ((calls.length - 1 : Nat) : ℚ) * a ≤
        (runCalls st calls).1.getLastD 0) ∧
    (∀ now d : ℚ, now ≤ st → (polite_sleep st now d).1 = st) ∧
    (∀ now d : ℚ, d ≤ b → (polite_sleep st now d).2.2 ≤ (polite_sleep st now d).1 + b) := by
  refine ⟨runCalls_watermark_mono st calls
      (fun p hp => le_trans ha (hab p hp).1),
    runCalls_chain a st calls (fun p hp => (hab p hp).1),
    fun hne => runCalls_first_last a st calls ha (fun p hp => (hab p hp).1) hne,
    fun now d hnow => max_eq_right hnow,
    fun now d hd => ?_⟩
  show max now st + d ≤ max now st + b
  linarith

/-- C8 counterexample: with delay window `[1, 2]`, a first call at clock 0
and a second call at clock 10 (both drawing delay 1, inside the window) get
slots 0 and 10: the second assigned slot is 10 after the previous one, *not*
at most `max_delay = 2` after it — `wake_at = max(now, watermark)` follows
the wall clock after an idle gap. -/
theorem polite_sleep_pacing_counterexample :
    ((1:ℚ) ≤ (1:ℚ) ∧ (1:ℚ) ≤ (2:ℚ)) ∧
    (runCalls 0 [((0:ℚ), (1:ℚ)), (10, 1)]).1 = [0, 10] ∧
    ¬((10:ℚ) ≤ 0 + 2) := by
  have h1 : max (0:ℚ) 0 = 0 := max_self 0
  have h2 : max (10:ℚ) (0 + 1) = 10 := max_eq_left (by norm_num)
  refine ⟨⟨le_refl 1, by norm_num⟩, ?_, by norm_num⟩
  show (max (0:ℚ) 0 :: max (10:ℚ) (max (0:ℚ) 0 + 1) ::
    ([] : List ℚ)) = [0, 10]
  rw [h1, h2]

/-- C8 witness: the amended pacing bounds applied to the concrete two-call
run used in the counterexample. -/
theorem polite_sleep_pacing_witness :
    (0:ℚ) ≤ (runCalls 0 [((0:ℚ), (1:ℚ)), (10, 1)]).2 ∧
    ((runCalls 0 [((0:ℚ), (1:ℚ)), (10, 1)]).1.headD 0 +
      ((([((0:ℚ), (1:ℚ)), (10, 1)] : List (ℚ × ℚ)).length - 1 : Nat) : ℚ) * 1 ≤
      (runCalls 0 [((0:ℚ), (1:ℚ)), (10, 1)]).1.getLastD 0) ∧
    (polite_sleep 0 (-3) (1:ℚ)).1 = 0 := by
  have h := polite_sleep_pacing 1 2 0 [((0:ℚ), (1:ℚ)), (10, 1)] (by norm_num)
    (by
      intro p hp
      rcases List.mem_cons.mp hp with h0 | h0
      · rw [h0]
        norm_num
      · rcases List.mem_cons.mp h0 with h1 | h1
        · rw [h1]
          norm_num
        · cases h1)
  exact ⟨h.1, h.2.2.1 (by simp), h.2.2.2.1 (-3) 1 (by norm_num)⟩

/-- What the environment makes one `session.get(url, timeout=...)` attempt
do: raise an exception, or return a response with a status code and a body
(`resp.text` for `fetch_text`, `resp.content` for `fetch_bytes`; both
abstracted as a string payload). -/
inductive Attempt where
  | exn (msg : String)
  | resp (status : Nat) (body : String)
deriving DecidableEq

/-- The observable events of one fetch call, in order: a `polite_sleep(cfg)`
pacing invocation, or the `session.get` of attempt `i`. -/
inductive FetchEv where
  | pace
  | request (i : Nat)
deriving DecidableEq

/-- The message of `RuntimeError(f"HTTP {resp.status_code} for {url}")`. -/
def httpErr (url : String) (status : Nat) : String :=
  "HTTP " ++ toString status ++ " for " ++ url

/-- What a non-accepted attempt leaves in `last_err`. -/
def attemptErr (url : String) : Attempt → String
  | .exn m => m
  | .resp st _ => httpErr url st

/-- Whether an attempt's response has `resp.status_code in ok_statuses`. -/
def isAccepted (ok : List Nat) : Attempt → Bool
  | .exn _ => false
  | .resp st _ => ok.contains st

def bodyOf : Attempt → String
  | .exn _ => ""
  | .resp _ b => b

/-- The aggregated `RuntimeError(f"Failed to fetch {url}") from last_err`:
its message plus the `__cause__` it carries. -/
structure FetchErr where
  msg : String
  cause : Option String
deriving DecidableEq

/-- The retry loop shared verbatim by http.py `fetch_text` and `fetch_bytes`:
`for attempt in range(cfg.max_retries): if attempt: polite_sleep(cfg);
try: resp = session.get(url, timeout=cfg.timeout_s); if resp.status_code in
ok_statuses: return <body>; raise RuntimeError(f"HTTP ... for {url}") except
Exception as e: last_err = e`, then after the loop
`raise RuntimeError(f"Failed to fetch {url}") from last_err`.
`outcomes i` is what `session.get` does on attempt number `i`; the returned
trace records pacing and request events in order, and the result is the body
or the aggregated error. -/
def fetchGo (outcomes : Nat → Attempt) (ok : List Nat) (url : String) :
    Nat → Nat → Option String → List FetchEv →
      List FetchEv × Except FetchErr String
  | _, 0, lastErr, tr => (tr, .error ⟨"Failed to fetch " ++ url, lastErr⟩)
  | i, fuel + 1, lastErr, tr =>
    let tr2 := (if i = 0 then tr else tr ++ [FetchEv.pace]) ++ [FetchEv.request i]
    match outcomes i with
    | .resp st body =>
      if ok.contains st then (tr2, .ok body)
      else fetchGo outcomes ok url (i + 1) fuel (some (httpErr url st)) tr2
    | .exn m => fetchGo outcomes ok url (i + 1) fuel (some m) tr2

/-- http.py `fetch_text`. -/
def fetch_text (outcomes : Nat → Attempt) (ok : List Nat) (url : String)
    (cfg : FetchConfig) : List FetchEv × Except FetchErr String :=
  fetchGo outcomes ok url 0 cfg.max_retries none []

/-- http.py `fetch_bytes`: identical control flow; only the returned payload
(`resp.content` instead of `resp.text`) differs, and payloads are abstract
here. -/
def fetch_bytes (outcomes : Nat → Attempt) (ok : List Nat) (url : String)
    (cfg : FetchConfig) : List FetchEv × Except FetchErr String :=
  fetchGo outcomes ok url 0 cfg.max_retries none []

/-- How many attempts the loop makes before returning: it stops at the first
accepted response, else runs out of fuel. -/
def attemptsMade (outcomes : Nat → Attempt) (ok : List Nat) : Nat → Nat → Nat
  | _, 0 => 0
  | i, fuel + 1 =>
    if isAccepted ok (outcomes i) then 1
    else attemptsMade outcomes ok (i + 1) fuel + 1

/-- The event trace of `k` attempts starting at attempt number `i`: a pacing
event before every attempt except attempt 0. -/
def mkTrace : Nat → Nat → List FetchEv
  | _, 0 => []
  | i, k + 1 =>
    (if i = 0 then [] else [FetchEv.pace]) ++ FetchEv.request i :: mkTrace (i + 1) k

/-- The result of the loop, separated from the trace. -/
def fetchRes (outcomes : Nat → Attempt) (ok : List Nat) (url : String) :
    Nat → Nat → Option String → Except FetchErr String
  | _, 0, lastErr => .error ⟨"Failed to fetch " ++ url, lastErr⟩
  | i, fuel + 1, lastErr =>
    match outcomes i with
    | .resp st body =>
      if ok.contains st then .ok body
      else fetchRes outcomes ok url (i + 1) fuel (some (httpErr url st))
    | .exn m => fetchRes outcomes ok url (i + 1) fuel (some m)

theorem fetchGo_eq (outcomes : Nat → Attempt) (ok : List Nat) (url : String) :
    ∀ (fuel i : Nat) (lastErr : Option String) (tr : List FetchEv),
    fetchGo outcomes ok url i fuel lastErr tr =
      (tr ++ mkTrace i (attemptsMade outcomes ok i fuel),
        fetchRes outcomes ok url i fuel lastErr) := by
  intro fuel
  induction fuel with
  | zero =>
    intro i lastErr tr
    simp [fetchGo, attemptsMade, mkTrace, fetchRes]
  | succ fuel ih =>
    intro i lastErr tr
    rw [fetchGo]
    match houtcome : outcomes i with
    | .exn m =>
      dsimp only
      rw [ih (i + 1)]
      rw [fetchRes, attemptsMade, houtcome]
      dsimp only [isAccepted]
      rw [if_neg Bool.false_ne_true, mkTrace]
      by_cases hi : i = 0 <;> simp [hi, List.append_assoc]
    | .resp st body =>
      by_cases hok : ok.contains st = true
      · dsimp only
        rw [if_pos hok]
        rw [fetchRes, attemptsMade, houtcome]
        dsimp only [isAccepted]
        rw [if_pos hok, if_pos hok]
        simp only [mkTrace]
        by_cases hi : i = 0 <;> simp [hi, List.append_assoc]
      · dsimp only
        rw [if_neg hok]
        rw [ih (i + 1)]
        rw [fetchRes, attemptsMade, houtcome]
        dsimp only [isAccepted]
        rw [if_neg hok, if_neg hok, mkTrace]
        by_cases hi : i = 0 <;> simp [hi, List.append_assoc]

/-- Number of `session.get` requests recorded in a trace. -/
def reqCount (tr : List FetchEv) : Nat :=
  tr.countP (fun e => match e with | .request _ => true | .pace => false)

/-- Number of `polite_sleep` pacing invocations recorded in a trace. -/
def paceCount (tr : List FetchEv) : Nat :=
  tr.countP (fun e => match e with | .pace => true | .request _ => false)

theorem reqCount_mkTrace (k : Nat) : ∀ i, reqCount (mkTrace i k) = k := by
  induction k with
  | zero => intro i; rfl
  | succ k ih =>
    intro i
    rw [mkTrace, reqCount, List.countP_append, List.countP_cons]
    by_cases hi : i = 0
    · subst hi
      have hrec := ih 1
      rw [reqCount] at hrec
      simp [hrec]
    · have hrec := ih (i + 1)
      rw [reqCount] at hrec
      simp [hi, hrec]

theorem paceCount_mkTrace_ne (k : Nat) : ∀ i, i ≠ 0 → paceCount (mkTrace i k) = k := by
  induction k with
  | zero => intro i _; rfl
  | succ k ih =>
    intro i hi
    rw [mkTrace, paceCount]
    simp only [hi, if_neg]
    simp [List.countP_append, List.countP_cons]
    have := ih (i + 1) (Nat.succ_ne_zero i)
    rw [paceCount] at this
    omega

theorem paceCount_mkTrace_zero (k : Nat) : paceCount (mkTrace 0 k) = k - 1 := by
  match k with
  | 0 => rfl
  | k + 1 =>
    rw [mkTrace, paceCount]
    simp [List.countP_cons]
    have := paceCount_mkTrace_ne k 1 (by omega)
    rw [paceCount] at this
    omega

theorem attemptsMade_le (outcomes : Nat → Attempt) (ok : List Nat) :
    ∀ (fuel i : Nat), attemptsMade outcomes ok i fuel ≤ fuel := by
  intro fuel
  induction fuel with
  | zero => intro i; exact Nat.le_refl 0
  | succ fuel ih =>
    intro i
    rw [attemptsMade]
    by_cases h : isAccepted ok (outcomes i) = true
    · rw [if_pos h]
      omega
    · rw [if_neg h]
      have := ih (i + 1)
      omega

theorem one_le_attemptsMade (outcomes : Nat → Attempt) (ok : List Nat)
    (fuel i : Nat) (h : 1 ≤ fuel) : 1 ≤ attemptsMade outcomes ok i fuel := by
  match fuel with
  | fuel + 1 =>
    rw [attemptsMade]
    by_cases hacc : isAccepted ok (outcomes i) = true
    · rw [if_pos hacc]
    · rw [if_neg hacc]
      omega

theorem fetchRes_exhaust (outcomes : Nat → Attempt) (ok : List Nat) (url : String) :
    ∀ (fuel i : Nat) (le : Option String),
    (∀ j, j < fuel → ¬ isAccepted ok (outcomes (i + j)) = true) →
    fetchRes outcomes ok url i fuel le =
      .error ⟨"Failed to fetch " ++ url,
        if fuel = 0 then le else some (attemptErr url (outcomes (i + fuel - 1)))⟩ ∧
    attemptsMade outcomes ok i fuel = fuel := by
  intro fuel
  induction fuel with
  | zero =>
    intro i le _
    exact ⟨by rw [fetchRes]; simp, rfl⟩
  | succ fuel ih =>
    intro i le h
    have h0 : ¬ isAccepted ok (outcomes i) = true := by
      have := h 0 (Nat.succ_pos fuel)
      simpa using this
    have hshift : ∀ j, j < fuel → ¬ isAccepted ok (outcomes (i + 1 + j)) = true := by
      intro j hj
      have := h (j + 1) (by omega)
      have heq : i + (j + 1) = i + 1 + j := by omega
      rw [heq] at this
      exact this
    have hidx : i + 1 + fuel - 1 = i + (fuel + 1) - 1 := by omega
    match houtcome : outcomes i with
    | .exn m =>
      obtain ⟨hres, hatt⟩ := ih (i + 1) (some m) hshift
      constructor
      · rw [fetchRes, houtcome]
        dsimp only
        rw [hres]
        by_cases hf : fuel = 0
        · subst hf
          rw [if_pos rfl, if_neg (Nat.succ_ne_zero 0)]
          have hi0 : i + (0 + 1) - 1 = i := by omega
          rw [hi0, houtcome]
          rfl
        · rw [if_neg hf, if_neg (Nat.succ_ne_zero fuel), hidx]
      · rw [attemptsMade, houtcome]
        have hnacc : ¬ isAccepted ok (Attempt.exn m) = true := by
          rw [← houtcome]
          exact h0
        rw [if_neg hnacc, hatt]
    | .resp st body =>
      have hok : ¬ ok.contains st = true := by
        rw [houtcome] at h0
        exact h0
      obtain ⟨hres, hatt⟩ := ih (i + 1) (some (httpErr url st)) hshift
      constructor
      · rw [fetchRes, houtcome]
        dsimp only
        rw [if_neg hok, hres]
        by_cases hf : fuel = 0
        · subst hf
          rw [if_pos rfl, if_neg (Nat.succ_ne_zero 0)]
          have hi0 : i + (0 + 1) - 1 = i := by omega
          rw [hi0, houtcome]
          rfl
        · rw [if_neg hf, if_neg (Nat.succ_ne_zero fuel), hidx]
      · rw [attemptsMade, houtcome]
        dsimp only [isAccepted]
        rw [if_neg hok, hatt]

theorem fetchRes_success (outcomes : Nat → Attempt) (ok : List Nat) (url : String) :
    ∀ (k fuel i : Nat) (le : Option String), k < fuel →
    isAccepted ok (outcomes (i + k)) = true →
    (∀ j, j < k → ¬ isAccepted ok (outcomes (i + j)) = true) →
    fetchRes outcomes ok url i fuel le = .ok (bodyOf (outcomes (i + k))) ∧
    attemptsMade outcomes ok i fuel = k + 1 := by
  intro k
  induction k with
  | zero =>
    intro fuel i le hk hacc _
    match fuel with
    | fuel + 1 =>
      rw [Nat.add_zero] at hacc
      match houtcome : outcomes i with
      | .exn m =>
        rw [houtcome] at hacc
        cases hacc
      | .resp st body =>
        rw [houtcome] at hacc
        have hok : ok.contains st = true := hacc
        constructor
        · rw [fetchRes, houtcome]
          dsimp only
          rw [if_pos hok]
          rfl
        · rw [attemptsMade, houtcome]
          dsimp only [isAccepted]
          rw [if_pos hok]
  | succ k ih =>
    intro fuel i le hk hacc hmin
    match fuel with
    | fuel + 1 =>
      have h0 : ¬ isAccepted ok (outcomes i) = true := by
        have := hmin 0 (Nat.succ_pos k)
        simpa using this
      have hacc' : isAccepted ok (outcomes (i + 1 + k)) = true := by
        have heq : i + (k + 1) = i + 1 + k := by omega
        rw [heq] at hacc
        exact hacc
      have hmin' : ∀ j, j < k → ¬ isAccepted ok (outcomes (i + 1 + j)) = true := by
        intro j hj
        have := hmin (j + 1) (by omega)
        have heq : i + (j + 1) = i + 1 + j := by omega
        rw [heq] at this
        exact this
      have hk' : k < fuel := by omega
      have hbody : i + 1 + k = i + (k + 1) := by omega
      match houtcome : outcomes i with
      | .exn m =>
        obtain ⟨hres, hatt⟩ := ih fuel (i + 1) (some m) hk' hacc' hmin'
        constructor
        · rw [fetchRes, houtcome]
          dsimp only
          rw [hres, hbody]
        · rw [attemptsMade, houtcome]
          have hnacc : ¬ isAccepted ok (Attempt.exn m) = true := by
            rw [← houtcome]
            exact h0
          rw [if_neg hnacc, hatt]
      | .resp st body =>
        have hok : ¬ ok.contains st = true := by
          rw [houtcome] at h0
          exact h0
        obtain ⟨hres, hatt⟩ := ih fuel (i + 1) (some (httpErr url st)) hk' hacc' hmin'
        constructor
        · rw [fetchRes, houtcome]
          dsimp only
          rw [if_neg hok, hres, hbody]
        · rw [attemptsMade, houtcome]
          dsimp only [isAccepted]
          rw [if_neg hok, hatt]

/-- C7: `fetch_text` and `fetch_bytes` (identical control flow) make at most
`cfg.max_retries` request attempts; their event trace is exactly `mkTrace`, a
request for every attempt with one pacing invocation before every attempt
except the first (so pacing count + 1 = request count); when attempt `k` is
the first whose status is accepted the body of that response is returned; and
when every attempt within the budget fails, the one aggregated error carries
the message `"Failed to fetch " ++ url` and, as its cause, the error of the
last attempt. -/
theorem fetch_retry_spec (outcomes : Nat → Attempt) (ok : List Nat) (url : String)
    (cfg : FetchConfig) (hmr : 1 ≤ cfg.max_retries) :
    (fetch_bytes outcomes ok url cfg = fetch_text outcomes ok url cfg) ∧
    (fetch_text outcomes ok url cfg).1
      = mkTrace 0 (attemptsMade outcomes ok 0 cfg.max_retries) ∧
    reqCount (fetch_text outcomes ok url cfg).1
      = attemptsMade outcomes ok 0 cfg.max_retries ∧
    reqCount (fetch_text outcomes ok url cfg).1 ≤ cfg.max_retries ∧
    1 ≤ reqCount (fetch_text outcomes ok url cfg).1 ∧
    paceCount (fetch_text outcomes ok url cfg).1 + 1
      = reqCount (fetch_text outcomes ok url cfg).1 ∧
    (∀ k, k < cfg.max_retries → isAccepted ok (outcomes k) = true →
      (∀ j, j < k → ¬ isAccepted ok (outcomes j) = true) →
      (fetch_text outcomes ok url cfg).2 = .ok (bodyOf (outcomes k)) ∧
      reqCount (fetch_text outcomes ok url cfg).1 = k + 1) ∧
    ((∀ j, j < cfg.max_retries → ¬ isAccepted ok (outcomes j) = true) →
      (fetch_text outcomes ok url cfg).2 =
        .error ⟨"Failed to fetch " ++ url,
          some (attemptErr url (outcomes (cfg.max_retries - 1)))⟩ ∧
      reqCount (fetch_text outcomes ok url cfg).1 = cfg.max_retries) := by
  have hmain := fetchGo_eq outcomes ok url cfg.max_retries 0 none []
  have htr : (fetch_text outcomes ok url cfg).1
      = mkTrace 0 (attemptsMade outcomes ok 0 cfg.max_retries) := by
    rw [fetch_text, hmain]
    simp
  have hres : (fetch_text outcomes ok url cfg).2
      = fetchRes outcomes ok url 0 cfg.max_retries none := by
    rw [fetch_text, hmain]
  have hreq : reqCount (fetch_text outcomes ok url cfg).1
      = attemptsMade outcomes ok 0 cfg.max_retries := by
    rw [htr, reqCount_mkTrace]
  refine ⟨rfl, htr, hreq, ?_, ?_, ?_, ?_, ?_⟩
  · rw [hreq]
    exact attemptsMade_le outcomes ok cfg.max_retries 0
  · rw [hreq]
    exact one_le_attemptsMade outcomes ok cfg.max_retries 0 hmr
  · rw [htr, paceCount_mkTrace_zero, reqCount_mkTrace]
    have := one_le_attemptsMade outcomes ok cfg.max_retries 0 hmr
    omega
  · intro k hk hacc hmin
    have hs := fetchRes_success outcomes ok url k cfg.max_retries 0 none hk
      (by simpa using hacc) (fun j hj => by simpa using hmin j hj)
    constructor
    · rw [hres, hs.1]
      simp
    · rw [hreq, hs.2]
  · intro hall
    have he := fetchRes_exhaust outcomes ok url cfg.max_retries 0 none
      (fun j hj => by simpa using hall j hj)
    constructor
    · rw [hres, he.1, if_neg (by omega)]
      simp
    · rw [hreq, he.2]

/-- Concrete attempt environment for the C7 witness: attempt 0 times out,
attempt 1 returns HTTP 500, attempt 2 returns HTTP 200 with a body. -/
def outcomesW : Nat → Attempt := fun i =>
  if i = 0 then .exn "timeout" else if i = 1 then .resp 500 "blocked" else .resp 200 "BODY"

/-- C7 witness: with `max_retries = 4` and accepted statuses `[200]`, the
fetch paces twice (before retries 1 and 2, not before attempt 0), makes 3
requests, and returns the body of attempt 2 — and `fetch_bytes` behaves
identically. -/
theorem fetch_retry_spec_witness :
    fetch_bytes outcomesW [200] "u" ⟨30, 1/2, 3/2, 4⟩
      = fetch_text outcomesW [200] "u" ⟨30, 1/2, 3/2, 4⟩ ∧
    (fetch_text outcomesW [200] "u" ⟨30, 1/2, 3/2, 4⟩).1 =
      [FetchEv.request 0, FetchEv.pace, FetchEv.request 1,
        FetchEv.pace, FetchEv.request 2] ∧
    (fetch_text outcomesW [200] "u" ⟨30, 1/2, 3/2, 4⟩).2 = Except.ok "BODY" ∧
    reqCount (fetch_text outcomesW [200] "u" ⟨30, 1/2, 3/2, 4⟩).1 = 3 := by
  have h := fetch_retry_spec outcomesW [200] "u" ⟨30, 1/2, 3/2, 4⟩ (by decide)
  have hsucc := h.2.2.2.2.2.2.1 2 (by decide) (by decide)
    (by
      intro j hj
      interval_cases j <;> decide)
  refine ⟨h.1, ?_, ?_, ?_⟩
  · rw [h.2.1]
    decide
  · exact hsucc.1
  · exact hsucc.2

/-! ### catalog.py — C9 -/

/-- One step of the per-page link collection in `iter_book_urls_from_genre`:
`if u not in seen_in_genre: seen_in_genre.add(u); found.append(u)`.  The
accumulator is `(seen_in_genre, found)`. -/
def collectStep (acc : List String × List String) (u : String) :
    List String × List String :=
  if acc.1.contains u then acc else (acc.1 ++ [u], acc.2 ++ [u])

/-- The `found` list one page contributes: its book links (in document
order, already url-joined and query-stripped — the BeautifulSoup href
extraction is abstracted as the page's link list) that were not seen earlier
in this genre. -/
def newLinks (seen links : List String) : List String :=
  (links.foldl collectStep (seen, [])).2

/-- The `seen_in_genre` set after processing one page's links. -/
def seenAfter (seen links : List String) : List String :=
  (links.foldl collectStep (seen, [])).1

/-- The page loop of catalog.py `iter_book_urls_from_genre`:
`for page in range(1, max_pages + 1)`, fetch page `page` (`pages page = none`
models `fetch_text` raising, upon which the loop breaks), collect the page's
not-yet-seen book links, break if there are none, else yield them and go on
to the next page.  Returns (pages requested, urls yielded). -/
def genreGo (pages : Nat → Option (List String)) :
    Nat → Nat → List String → Nat × List String
  | _, 0, _ => (0, [])
  | page, fuel + 1, seen =>
    match pages page with
    | none => (1, [])
    | some links =>
      if newLinks seen links = [] then (1, [])
      else
        let r := genreGo pages (page + 1) fuel (seenAfter seen links)
        (r.1 + 1, newLinks seen links ++ r.2)

/-- catalog.py `iter_book_urls_from_genre`, pages numbered from 1 and bounded
by `max_pages`. -/
def iter_book_urls_from_genre (pages : Nat → Option (List String))
    (max_pages : Nat) : Nat × List String :=
  genreGo pages 1 max_pages []

theorem genreGo_le (pages : Nat → Option (List String)) :
    ∀ (fuel page : Nat) (seen : List String),
      (genreGo pages page fuel seen).1 ≤ fuel := by
  intro fuel
  induction fuel with
  | zero => intro page seen; exact Nat.le_refl 0
  | succ fuel ih =>
    intro page seen
    rw [genreGo]
    match pages page with
    | none =>
      dsimp only
      omega
    | some links =>
      dsimp only
      by_cases h : newLinks seen links = []
      · rw [if_pos h]
        omega
      · rw [if_neg h]
        have := ih (page + 1) (seenAfter seen links)
        dsimp only
        omega

/-- C9: the genre walk requests at most `max_pages` pages whatever the
upstream does (even if it never signals an end of pagination), and it stops
immediately — the current page is the last one requested and nothing more is
yielded — as soon as a page's fetch fails or a page contributes zero new
(not previously seen in this genre) book links. -/
theorem genre_walk_terminates (pages : Nat → Option (List String)) (max_pages : Nat) :
    (iter_book_urls_from_genre pages max_pages).1 ≤ max_pages ∧
    (∀ (page fuel : Nat) (seen : List String),
      (genreGo pages page fuel seen).1 ≤ fuel) ∧
    (∀ (page fuel : Nat) (seen : List String), 1 ≤ fuel → pages page = none →
      genreGo pages page fuel seen = (1, [])) ∧
    (∀ (page fuel : Nat) (seen links : List String), 1 ≤ fuel →
      pages page = some links → newLinks seen links = [] →
      genreGo pages page fuel seen = (1, [])) := by
  refine ⟨genreGo_le pages max_pages 1 [], fun page fuel seen => genreGo_le pages fuel page seen,
    ?_, ?_⟩
  · intro page fuel seen hf hnone
    match fuel, hf with
    | fuel + 1, _ =>
      rw [genreGo, hnone]
  · intro page fuel seen links hf hsome hempty
    match fuel, hf with
    | fuel + 1, _ =>
      rw [genreGo, hsome]
      dsimp only
      rw [if_pos hempty]

/-- Concrete paginator for the C9 witness: page 1 has links `x, y`; page 2
repeats `y` only (zero new links); fetching any later page fails. -/
def pagesW : Nat → Option (List String) := fun p =>
  if p = 1 then some ["x", "y"] else if p = 2 then some ["y"] else none

/-- C9 witness: against `pagesW` with a budget of 100 pages, the walk
requests only 2 pages and yields `x, y`; a page with zero new links and a
failing fetch each stop the loop at once. -/
theorem genre_walk_terminates_witness :
    (iter_book_urls_from_genre pagesW 100).1 ≤ 100 ∧
    iter_book_urls_from_genre pagesW 100 = (2, ["x", "y"]) ∧
    genreGo pagesW 2 7 ["x", "y"] = (1, []) ∧
    genreGo pagesW 5 7 [] = (1, []) := by
  have h := genre_walk_terminates pagesW 100
  refine ⟨h.1, by decide, ?_, ?_⟩
  · exact h.2.2.2 2 7 ["x", "y"] ["y"] (by decide) (by decide) (by decide)
  · exact h.2.2.1 5 7 [] (by decide) (by decide)

/-! ### normalizer.py — C3

Python's `re` module and `float`/`datetime` built-ins are embedded for the
fragments the normalizers use: `\d` is modelled as an ASCII digit (Python's
unicode `\d` also accepts non-ASCII decimal digits), `\s` as the common
whitespace characters, and `float` parsing/printing over plain decimal
notation (no exponent/inf/nan/underscore forms), exact for inputs of at most
15 significant digits — the regimes the repository's data exercises. -/

/-- The maximal ASCII-digit prefix (the greedy `\d+`) and the rest. -/
def digitRun : List Char → List Char × List Char
  | [] => ([], [])
  | c :: cs =>
    if c.isDigit then
      let p := digitRun cs
      (c :: p.1, p.2)
    else ([], c :: cs)

/-- First match of `re.search(r'(\d+(?:[.,]\d+)?)', ...)`: the first maximal
digit run, extended by `.` or `,` plus a second digit run when one
immediately follows.  Returns (integer digits, fraction digits). -/
def numberMatch : List Char → Option (List Char × List Char)
  | [] => none
  | c :: cs =>
    if c.isDigit then
      let p := digitRun (c :: cs)
      match p.2 with
      | s :: d :: rest =>
        if (s = '.' ∨ s = ',') ∧ d.isDigit then some (p.1, (digitRun (d :: rest)).1)
        else some (p.1, [])
      | _ => some (p.1, [])
    else numberMatch cs

/-- The value of a digit string. -/
def digitsToNat (ds : List Char) : Nat :=
  ds.foldl (fun acc c => acc * 10 + (c.toNat - 48)) 0

/-- The integer number of cents `f"{float(num):.2f}"` prints for the decimal
`ip.fp`: exact half-even rounding of `value·100` (what the float formatting
computes, exactly, away from double-precision tie artifacts). -/
def priceCents (ip fp : List Char) : Nat :=
  let den := 10 ^ fp.length
  let num := digitsToNat fp * 100
  digitsToNat ip * 100 + num / den +
    (if den < 2 * (num % den) then 1
     else if 2 * (num % den) < den then 0
     else (num / den) % 2)

/-- Rendering of the rounded cents as `f"{x:.2f}".replace('.', ',')`. -/
def formatCents (cents : Nat) : String :=
  toString (cents / 100) ++ "," ++
    (if cents % 100 < 10 then "0" else "") ++ toString (cents % 100)

/-- normalizer.py `normalize_price`: empty/None input gives `""`; otherwise
the first `\d+(?:[.,]\d+)?` match, with `,` read as a decimal point, printed
as a two-decimal comma-separated number; no match gives `""`.  (The
`except ValueError` branch is unreachable: every matched text parses as a
float.) -/
def normalize_price (price : Option String) : String :=
  match price with
  | none => ""
  | some s =>
    if s = "" then ""
    else
      match numberMatch s.data with
      | none => ""
      | some (ip, fp) => formatCents (priceCents ip fp)

/-- The first maximal digit run anywhere in the text
(`re.search(r'(\d+)', ...)`). -/
def firstDigitRun : List Char → Option (List Char)
  | [] => none
  | c :: cs => if c.isDigit then some (digitRun (c :: cs)).1 else firstDigitRun cs

/-- normalizer.py `normalize_age_restriction`: the first digit run, else
`""`. -/
def normalize_age_restriction (age : Option String) : String :=
  match age with
  | none => ""
  | some s =>
    if s = "" then ""
    else
      match firstDigitRun s.data with
      | some ds => String.mk ds
      | none => ""

/-- normalizer.py `normalize_count`: drop `' '` and `'\xa0'`, then the first
digit run, else `""`. -/
def normalize_count (count : Option String) : String :=
  match count with
  | none => ""
  | some s =>
    if s = "" then ""
    else
      match firstDigitRun (s.data.filter (fun c => !(c == ' ' || c == ' '))) with
      | some ds => String.mk ds
      | none => ""

/-- `iso_date.replace('Z', '+00:00')`. -/
def replaceZ (cs : List Char) : List Char :=
  cs.flatMap (fun c => if c = 'Z' then "+00:00".data else [c])

def isLeap (y : Nat) : Bool := (y % 4 == 0 && y % 100 != 0) || y % 400 == 0

def daysInMonth (y m : Nat) : Nat :=
  if m = 2 then (if isLeap y then 29 else 28)
  else if m = 4 ∨ m = 6 ∨ m = 9 ∨ m = 11 then 30
  else 31

/-- Value of a two-digit pair. -/
def twoVal (a b : Char) : Nat := (a.toNat - 48) * 10 + (b.toNat - 48)

/-- Optional trailing utc offset `±HH:MM`. -/
def tzTail : List Char → Bool
  | [] => true
  | sgn :: h1 :: h2 :: ':' :: m1 :: m2 :: [] =>
    (sgn == '+' || sgn == '-') && h1.isDigit && h2.isDigit && m1.isDigit &&
      m2.isDigit && twoVal h1 h2 ≤ 23 && twoVal m1 m2 ≤ 59
  | _ => false

/-- Optional fractional seconds `.d{1,6}`, then the offset. -/
def fracTail (cs : List Char) : Bool :=
  match cs with
  | '.' :: rest =>
    let p := digitRun rest
    decide (1 ≤ p.1.length) && decide (p.1.length ≤ 6) && tzTail p.2
  | rest => tzTail rest

/-- Optional `:SS`, then fraction/offset. -/
def secTail : List Char → Bool
  | ':' :: s1 :: s2 :: rest =>
    s1.isDigit && s2.isDigit && twoVal s1 s2 ≤ 59 && fracTail rest
  | rest => tzTail rest

/-- Optional `:MM`, then seconds. -/
def minTail : List Char → Bool
  | ':' :: m1 :: m2 :: rest =>
    m1.isDigit && m2.isDigit && twoVal m1 m2 ≤ 59 && secTail rest
  | rest => tzTail rest

/-- The time-of-day part: nothing, or `T`/space then `HH[:MM[:SS[.ffffff]]]`
with an optional offset. -/
def timeTail : List Char → Bool
  | [] => true
  | sep :: h1 :: h2 :: rest =>
    (sep == 'T' || sep == ' ') && h1.isDigit && h2.isDigit &&
      twoVal h1 h2 ≤ 23 && minTail rest
  | _ => false

/-- The fragment of `datetime.fromisoformat` the pipeline's dates exercise:
`YYYY-MM-DD` with a real calendar date, optionally followed by a valid
time-of-day/offset part.  Returns (year, month, day), or `none` when the text
does not parse (Python raises `ValueError`). -/
def pyFromIso (cs : List Char) : Option (Nat × Nat × Nat) :=
  match cs with
  | y1 :: y2 :: y3 :: y4 :: '-' :: mo1 :: mo2 :: '-' :: d1 :: d2 :: rest =>
    if y1.isDigit && y2.isDigit && y3.isDigit && y4.isDigit && mo1.isDigit &&
        mo2.isDigit && d1.isDigit && d2.isDigit then
      let y := digitsToNat [y1, y2, y3, y4]
      let mo := twoVal mo1 mo2
      let d := twoVal d1 d2
      if 1 ≤ mo ∧ mo ≤ 12 ∧ 1 ≤ d ∧ d ≤ daysInMonth y mo ∧ timeTail rest = true then
        some (y, mo, d)
      else none
    else none
  | _ => none

/-- Zero-padding to two digits (`%d`, `%m`). -/
def pad2 (n : Nat) : String := (if n < 10 then "0" else "") ++ toString n

/-- Zero-padding to four digits (`%Y`). -/
def pad4 (n : Nat) : String :=
  (if n < 10 then "000" else if n < 100 then "00" else if n < 1000 then "0" else "")
    ++ toString n

/-- normalizer.py `normalize_date`: empty/None gives `""`; otherwise replace
`Z` by `+00:00`, parse with `datetime.fromisoformat` and print
`%d.%m.%Y` — but when parsing raises, the INPUT string is returned unchanged
(not `""`). -/
def normalize_date (iso_date : Option String) : String :=
  match iso_date with
  | none => ""
  | some s =>
    if s = "" then ""
    else
      match pyFromIso (replaceZ s.data) with
      | some (y, mo, d) => pad2 d ++ "." ++ pad2 mo ++ "." ++ pad4 y
      | none => s

/-- `re.findall(r'«([^»]+)»', ...)`: left-to-right, non-overlapping; at each
`«` the greedy `[^»]+` runs to the next `»` (and needs at least one
character); without a closing `»` there is no further match.  `fuel` is the
scan-position budget (`seriesFind` supplies the text length, which the scan
can never exceed since every step advances). -/
def seriesFindGo : Nat → List Char → List (List Char)
  | 0, _ => []
  | _, [] => []
  | fuel + 1, c :: cs =>
    if c = '«' then
      match cs.dropWhile (fun d => !(d == '»')) with
      | '»' :: tail =>
        if cs.takeWhile (fun d => !(d == '»')) = [] then seriesFindGo fuel cs
        else cs.takeWhile (fun d => !(d == '»')) :: seriesFindGo fuel tail
      | _ => seriesFindGo fuel cs
    else seriesFindGo fuel cs

def seriesFind (cs : List Char) : List (List Char) :=
  seriesFindGo cs.length cs

/-- Python `re` `\s` (the whitespace the inputs contain). -/
def isSpaceRe (c : Char) : Bool :=
  c == ' ' || c == '\t' || c == '\n' || c == '\r' || c == '\u000B' ||
    c == '\u000C' || c == ' '

/-- Case folding for the Cyrillic letters the series prefixes use
(`re.IGNORECASE`). -/
def ruLower (c : Char) : Char :=
  if 0x410 ≤ c.toNat ∧ c.toNat ≤ 0x42F then Char.ofNat (c.toNat + 0x20)
  else if c.toNat = 0x401 then Char.ofNat 0x451
  else c.toLower

/-- `re.sub(r'^Входит в серию\s+', '', series, flags=re.IGNORECASE)`:
anchored, so it strips at most one prefix occurrence. -/
def stripSeriesIntro (cs : List Char) : List Char :=
  let pat := "входит в серию".data
  if (cs.take pat.length).map ruLower = pat then
    let rest := cs.drop pat.length
    if rest.takeWhile isSpaceRe = [] then cs else rest.dropWhile isSpaceRe
  else cs

def eatWordCi (w cs : List Char) : Option (List Char) :=
  if (cs.take w.length).map ruLower = w then some (cs.drop w.length) else none

def eatSpaces1 (cs : List Char) : Option (List Char) :=
  if cs.takeWhile isSpaceRe = [] then none else some (cs.dropWhile isSpaceRe)

def eatDigits1 (cs : List Char) : Option (List Char) :=
  if (digitRun cs).1 = [] then none else some (digitRun cs).2

/-- One match of `r'\d+\s+книга\s+из\s+\d+\s+в\s+серии\s+'` (IGNORECASE)
starting at the current position; the character classes of consecutive
tokens are disjoint, so greedy maximal-munch equals the regex semantics. -/
def matchSeriesCountPat (cs : List Char) : Option (List Char) :=
  (eatDigits1 cs).bind fun r1 =>
  (eatSpaces1 r1).bind fun r2 =>
  (eatWordCi "книга".data r2).bind fun r3 =>
  (eatSpaces1 r3).bind fun r4 =>
  (eatWordCi "из".data r4).bind fun r5 =>
  (eatSpaces1 r5).bind fun r6 =>
  (eatDigits1 r6).bind fun r7 =>
  (eatSpaces1 r7).bind fun r8 =>
  (eatWordCi "в".data r8).bind fun r9 =>
  (eatSpaces1 r9).bind fun r10 =>
  (eatWordCi "серии".data r10).bind fun r11 =>
  eatSpaces1 r11

/-- `re.sub` of the pattern above with `''`: scan left to right, removing
non-overlapping matches (every match consumes at least one character, so the
text length bounds the scan). -/
def subSeriesCountPat : Nat → List Char → List Char
  | 0, l => l
  | _, [] => []
  | fuel + 1, c :: cs =>
    match matchSeriesCountPat (c :: cs) with
    | some rest => subSeriesCountPat fuel rest
    | none => c :: subSeriesCountPat fuel cs

/-- Python `str.strip()`. -/
def pyStrip (cs : List Char) : List Char :=
  ((cs.dropWhile isSpaceRe).reverse.dropWhile isSpaceRe).reverse

/-- normalizer.py `normalize_series_title`: all non-empty `«…»` segments
joined with a blank line if any exist, else the input with the typical
prefixes removed and stripped. -/
def normalize_series_title (series : Option String) : String :=
  match series with
  | none => ""
  | some s =>
    if s = "" then ""
    else
      match seriesFind s.data with
      | [] =>
        let r1 := stripSeriesIntro s.data
        String.mk (pyStrip (subSeriesCountPat r1.length r1))
      | names => String.intercalate "\n\n" (names.map String.mk)

/-- The fragment of Python `float(...)` parsing the ratings exercise: optional
whitespace, optional sign, plain decimal digits with an optional point
(no exponent/inf/nan/underscore forms).  Returns (negative, integer digits,
fraction digits). -/
def pyFloatParse (cs : List Char) : Option (Bool × List Char × List Char) :=
  let l1 := cs.dropWhile isSpaceRe
  let body := (l1.reverse.dropWhile isSpaceRe).reverse
  let signBody : Bool × List Char :=
    match body with
    | '-' :: rest => (true, rest)
    | '+' :: rest => (false, rest)
    | rest => (false, rest)
  let p := digitRun signBody.2
  match p.2 with
  | [] => if p.1 = [] then none else some (signBody.1, p.1, [])
  | '.' :: rest =>
    let q := digitRun rest
    if q.2 = [] ∧ (p.1 ≠ [] ∨ q.1 ≠ []) then some (signBody.1, p.1, q.1) else none
  | _ => none

/-- `str(float(...))` for the parsed decimal: the shortest round-tripping
decimal, which for at most 15 significant digits is the input with leading
integer zeros and trailing fraction zeros removed and at least one digit on
each side of the point. -/
def pyFloatStr (neg : Bool) (ip fp : List Char) : String :=
  let ipn := ip.dropWhile (fun c => c == '0')
  let fpn := (fp.reverse.dropWhile (fun c => c == '0')).reverse
  (if neg then "-" else "") ++
    String.mk (if ipn = [] then ['0'] else ipn) ++ "." ++
    String.mk (if fpn = [] then ['0'] else fpn)

/-- normalizer.py `normalize_rating`: replace `,` by `.`, convert through
`float`/`str`, or `""` when `float` raises. -/
def normalize_rating (rating : Option String) : String :=
  match rating with
  | none => ""
  | some s =>
    if s = "" then ""
    else
      match pyFloatParse (s.data.map (fun c => if c = ',' then '.' else c)) with
      | some (neg, ip, fp) => pyFloatStr neg ip fp
      | none => ""

/-- The `str | int | bool | None` input type of `normalize_boolean`. -/
inductive PyVal where
  | str (s : String)
  | int (n : Int)
  | bool (b : Bool)
  | none
deriving DecidableEq

/-- normalizer.py `normalize_boolean`:
`value in (True, 1, '1', 'yes', 'true', 'True')` (Python `==`, under which
`True == 1`) decides `"1"` vs `"0"`. -/
def normalize_boolean (value : PyVal) : String :=
  match value with
  | .bool b => if b then "1" else "0"
  | .int n => if n = 1 then "1" else "0"
  | .str s => if s = "1" ∨ s = "yes" ∨ s = "true" ∨ s = "True" then "1" else "0"
  | .none => "0"

/-- Python `str.startswith`, over the character lists. -/
def startsWithL : List Char → List Char → Bool
  | [], _ => true
  | _ :: _, [] => false
  | p :: ps, c :: cs => p == c && startsWithL ps cs

/-- normalizer.py `normalize_avatar_url`: any value starting with `/` or
`http` becomes the marker `есть`, everything else `""`. -/
def normalize_avatar_url (avatar : Option String) : String :=
  match avatar with
  | none => ""
  | some s =>
    if s = "" then ""
    else if startsWithL "/".data s.data || startsWithL "http".data s.data then "есть"
    else ""

theorem numberMatch_none_iff (cs : List Char) :
    numberMatch cs = none ↔ ∀ c ∈ cs, c.isDigit = false := by
  induction cs with
  | nil => simp [numberMatch]
  | cons c cs ih =>
    rw [numberMatch]
    by_cases hd : c.isDigit = true
    · rw [if_pos hd]
      dsimp only
      rcases hsplit : (digitRun (c :: cs)).2 with _ | ⟨s, _ | ⟨d, rest⟩⟩
      · simp [hd]
      · simp [hd]
      · dsimp only
        split <;> simp [hd]
    · rw [if_neg hd]
      have hdf : c.isDigit = false := by simpa using hd
      simp [ih, hdf]

theorem firstDigitRun_none_iff (cs : List Char) :
    firstDigitRun cs = none ↔ ∀ c ∈ cs, c.isDigit = false := by
  induction cs with
  | nil => simp [firstDigitRun]
  | cons c cs ih =>
    rw [firstDigitRun]
    by_cases hd : c.isDigit = true
    · rw [if_pos hd]
      simp [hd]
    · rw [if_neg hd]
      have hdf : c.isDigit = false := by simpa using hd
      simp [ih, hdf]

theorem formatCents_ne_empty (c : Nat) : formatCents c ≠ "" := by
  rw [formatCents]
  intro h
  have hd := congrArg String.data h
  simp [String.data_append] at hd

theorem takeWhile_until_guillemet (r : List Char) (t : List Char)
    (hno : ∀ c ∈ t, ¬(c = '»')) :
    (t ++ '»' :: r).takeWhile (fun d => !(d == '»')) = t ∧
    (t ++ '»' :: r).dropWhile (fun d => !(d == '»')) = '»' :: r := by
  induction t with
  | nil => simp [List.takeWhile, List.dropWhile]
  | cons c t iht =>
    have hc : ¬(c = '»') := hno c (List.mem_cons_self c t)
    have hrec := iht (fun x hx => hno x (List.mem_cons_of_mem c hx))
    rw [List.cons_append]
    constructor
    · rw [List.takeWhile_cons]
      simp [hc, hrec.1]
    · rw [List.dropWhile_cons]
      simp [hc, hrec.2]

theorem seriesFind_single (t : List Char) (ht : t ≠ [])
    (hno : ∀ c ∈ t, ¬(c = '»')) :
    seriesFind ('«' :: t ++ ['»']) = [t] := by
  have hsplit := takeWhile_until_guillemet [] t hno
  rw [seriesFind]
  have hlen : ('«' :: t ++ ['»'] : List Char).length = t.length + 1 + 1 := by
    simp
  rw [hlen]
  show seriesFindGo (t.length + 1 + 1) ('«' :: (t ++ ['»'])) = [t]
  rw [seriesFindGo]
  rw [if_pos rfl]
  rw [show (t ++ ['»'] : List Char) = t ++ '»' :: [] from rfl]
  rw [hsplit.1, hsplit.2]
  show (if t = [] then seriesFindGo (t.length + 1) (t ++ ['»'])
    else t :: seriesFindGo (t.length + 1) ([] : List Char)) = [t]
  rw [if_neg ht]
  have hnil : seriesFindGo (t.length + 1) [] = [] := rfl
  rw [hnil]

theorem normalize_series_title_guillemets (t : List Char) (ht : t ≠ [])
    (hno : ∀ c ∈ t, ¬(c = '»')) :
    normalize_series_title (some (String.mk ('«' :: t ++ ['»']))) = String.mk t := by
  rw [normalize_series_title]
  have hne : ¬(String.mk ('«' :: t ++ ['»']) = "") := by
    intro h
    have := congrArg String.data h
    simp at this
  rw [if_neg hne]
  have hdata : (String.mk ('«' :: t ++ ['»'])).data = '«' :: t ++ ['»'] := rfl
  rw [hdata, seriesFind_single t ht hno]
  rfl

/-- C3 counterexample: `normalize_date` on the unparsable, non-empty string
`"garbage"` returns the input string itself — not the empty string the claim
requires for unparsable input. -/
theorem normalize_date_counterexample :
    normalize_date (some "garbage") = "garbage" ∧ ("garbage" : String) ≠ "" := by
  decide

/-- C3 (amended): every normalizer is a total `String`-valued function and
maps `None` and `""` to `""`; `normalize_price` and
`normalize_age_restriction` return `""` exactly when the input has no digit;
`normalize_date` reformats a parsable date as `DD.MM.YYYY` but returns an
unparsable non-empty input *unchanged* (only the None/empty cases give
`""`); a guillemet-quoted series title comes back bare; and the claim's
concrete examples hold, including `normalize_price "Free" = ""`. -/
theorem normalizer_spec (s : String) (t : List Char) (hs : s ≠ "")
    (ht : t ≠ []) (hno : ∀ c ∈ t, ¬(c = '»')) :
    normalize_price none = "" ∧ normalize_price (some "") = "" ∧
    normalize_age_restriction none = "" ∧ normalize_age_restriction (some "") = "" ∧
    normalize_count none = "" ∧ normalize_count (some "") = "" ∧
    normalize_date none = "" ∧ normalize_date (some "") = "" ∧
    normalize_series_title none = "" ∧ normalize_series_title (some "") = "" ∧
    normalize_rating none = "" ∧ normalize_rating (some "") = "" ∧
    normalize_avatar_url none = "" ∧ normalize_avatar_url (some "") = "" ∧
    (normalize_price (some s) = "" ↔ ∀ c ∈ s.data, c.isDigit = false) ∧
    (normalize_age_restriction (some s) = "" ↔ ∀ c ∈ s.data, c.isDigit = false) ∧
    (∀ y mo d, pyFromIso (replaceZ s.data) = some (y, mo, d) →
      normalize_date (some s) = pad2 d ++ "." ++ pad2 mo ++ "." ++ pad4 y) ∧
    (pyFromIso (replaceZ s.data) = none → normalize_date (some s) = s) ∧
    normalize_series_title (some (String.mk ('«' :: t ++ ['»']))) = String.mk t ∧
    normalize_price (some "569 RUB") = "569,00" ∧
    normalize_price (some "Free") = "" ∧
    normalize_age_restriction (some "18+") = "18" ∧
    normalize_date (some "2023-11-20T13:48:18+00:00") = "20.11.2023" ∧
    normalize_series_title (some "«Имя серии»") = "Имя серии" ∧
    normalize_rating (some "4,9") = "4.9" ∧
    normalize_count (some "547 оценок") = "547" ∧
    normalize_boolean (PyVal.str "yes") = "1" ∧
    normalize_boolean PyVal.none = "0" ∧
    normalize_avatar_url (some "/pub/avatar/452314040.jpg") = "есть" := by
  refine ⟨by decide, by decide, by decide, by decide, by decide, by decide,
    by decide, by decide, by decide, by decide, by decide, by decide,
    by decide, by decide, ?_, ?_, ?_, ?_,
    normalize_series_title_guillemets t ht hno,
    by decide, by decide, by decide, by decide, by decide, by decide,
    by decide, by decide, by decide, by decide⟩
  · rw [normalize_price]
    rw [if_neg hs]
    rcases hnm : numberMatch s.data with _ | ⟨ip, fp⟩
    · dsimp only
      constructor
      · intro _
        exact (numberMatch_none_iff s.data).mp hnm
      · intro _
        rfl
    · dsimp only
      constructor
      · intro h
        exact absurd h (formatCents_ne_empty _)
      · intro hall
        have := (numberMatch_none_iff s.data).mpr hall
        rw [hnm] at this
        cases this
  · rw [normalize_age_restriction]
    rw [if_neg hs]
    rcases hnm : firstDigitRun s.data with _ | ⟨ds⟩
    · dsimp only
      constructor
      · intro _
        exact (firstDigitRun_none_iff s.data).mp hnm
      · intro _
        rfl
    · dsimp only
      constructor
      · intro h
        have hdig : ds ≠ [] := by
          -- the matched digit run starts with the digit that was found
          revert hnm
          induction s.data with
          | nil => intro hnm; cases hnm
          | cons c cs ihc =>
            rw [firstDigitRun]
            by_cases hd : c.isDigit = true
            · rw [if_pos hd]
              intro hnm
              rw [Option.some_inj] at hnm
              rw [← hnm]
              rw [digitRun, if_pos hd]
              simp
            · rw [if_neg hd]
              exact ihc
        have := congrArg String.data h
        simp at this
        exact absurd this hdig
      · intro hall
        have := (firstDigitRun_none_iff s.data).mpr hall
        rw [hnm] at this
        cases this
  · intro y mo d hp
    rw [normalize_date]
    rw [if_neg hs, hp]
  · intro hp
    rw [normalize_date]
    rw [if_neg hs, hp]

/-- C3 witness: the amended statement applied at `s = "garbage"` and
`t = "Имя серии"`. -/
theorem normalizer_spec_witness :
    normalize_date (some "garbage") = "garbage" ∧
    normalize_price (some "569 RUB") = "569,00" ∧
    normalize_price (some "Free") = "" ∧
    normalize_age_restriction (some "18+") = "18" ∧
    normalize_series_title (some "«Имя серии»") = "Имя серии" ∧
    normalize_date (some "2023-11-20T13:48:18+00:00") = "20.11.2023" := by
  have h := normalizer_spec "garbage" "Имя серии".data (by decide) (by decide)
    (by decide)
  obtain ⟨_, _, _, _, _, _, _, _, _, _, _, _, _, _, _, _, _, h18, _,
    h20, h21, h22, h23, h24, _⟩ := h
  exact ⟨h18 (by decide), h20, h21, h22, h24, h23⟩

end LitresParser

